import Mathlib

/-!
Verification of the fairseq2 data-pipeline combinator engine.

The engine itself (the fairseq2n native `DataPipeline`) is not part of this
source tree; only its documentation notebook `doc/source/notebooks/
datapipeline.ipynb` is.  The definitions below are therefore modelled from
the specification of the engine and validated against the concrete
element sequences asserted in that notebook.
-/

set_option maxRecDepth 8000

namespace Fairseq2

/-- Modelled from the spec: an Item is a tagged union of scalars, ordered
sequences and string-keyed mappings flowing through the pipeline graph
(floating point and bytes payloads are not needed by any claim and are
omitted). -/
inductive Item where
  | null : Item
  | bool (b : Bool) : Item
  | int (n : Int) : Item
  | str (s : String) : Item
  | seq (xs : List Item) : Item
  | dict (kvs : List (String × Item)) : Item
deriving BEq

/-! ## The core pipeline algebra

Modelled from the spec: a closed set of Stage variants behind a uniform
pull / reset / snapshot / restore interface.  This algebra covers the
finite-source stages: sequence source, map, filter, concat, fixed-size
bucket, dynamic bucket and bounded-buffer shuffle. -/

/-- Modelled from the spec: a pipeline graph over finite sources. -/
inductive DP where
  | readSequence (items : List Item) : DP
  | mapStage (f : Item → Item) (child : DP) : DP
  | filterStage (pred : Item → Bool) (child : DP) : DP
  | concat (first second : DP) : DP
  | bucket (size : Nat) (dropRemainder : Bool) (child : DP) : DP
  | dynamicBucket (threshold : Int) (cost : Item → Int) (minEx : Nat)
      (maxEx : Option Nat) (dropRemainder : Bool) (child : DP) : DP
  | shuffle (bufferSize : Nat) (seed : Nat) (child : DP) : DP

/-- Runtime state of a pipeline, mirroring the graph shape. -/
inductive St where
  | source (pos : Nat) : St
  | mapSt (s : St) : St
  | filterSt (s : St) : St
  | concatSt (onFirst : Bool) (s1 s2 : St) : St
  | bucketSt (acc : List Item) (s : St) : St
  | dynSt (pending : List Item) (s : St) : St
  | shuffleSt (buffer : List Item) (rng : Nat) (s : St) : St

/-- Initial ("not yet started") state of a pipeline. -/
def initSt : DP → St
  | .readSequence _ => .source 0
  | .mapStage _ c => .mapSt (initSt c)
  | .filterStage _ c => .filterSt (initSt c)
  | .concat p q => .concatSt true (initSt p) (initSt q)
  | .bucket _ _ c => .bucketSt [] (initSt c)
  | .dynamicBucket _ _ _ _ _ c => .dynSt [] (initSt c)
  | .shuffle _ seed c => .shuffleSt [] seed (initSt c)

/-- Does the runtime state have the shape required by the graph? -/
def fits : DP → St → Bool
  | .readSequence _, .source _ => true
  | .mapStage _ c, .mapSt s => fits c s
  | .filterStage _ c, .filterSt s => fits c s
  | .concat p q, .concatSt _ s1 s2 => fits p s1 && fits q s2
  | .bucket _ _ c, .bucketSt _ s => fits c s
  | .dynamicBucket _ _ _ _ _ c, .dynSt _ s => fits c s
  | .shuffle _ _ c, .shuffleSt _ _ s => fits c s
  | _, _ => false

/-- Upper bound on the number of items the pipeline can still yield from
upstream; used to provide sufficient fuel to the step interpreter. -/
def stepBound : DP → St → Nat
  | .readSequence l, .source pos => l.length - pos
  | .mapStage _ c, .mapSt s => stepBound c s
  | .filterStage _ c, .filterSt s => stepBound c s
  | .concat p q, .concatSt _ s1 s2 => stepBound p s1 + stepBound q s2
  | .bucket _ _ c, .bucketSt acc s => acc.length + stepBound c s
  | .dynamicBucket _ _ _ _ _ c, .dynSt pending s => pending.length + stepBound c s
  | .shuffle _ _ c, .shuffleSt buf _ s => buf.length + stepBound c s
  | _, _ => 0

/-- Nesting depth of a pipeline graph. -/
def depthDP : DP → Nat
  | .readSequence _ => 1
  | .mapStage _ c => depthDP c + 1
  | .filterStage _ c => depthDP c + 1
  | .concat p q => max (depthDP p) (depthDP q) + 1
  | .bucket _ _ c => depthDP c + 1
  | .dynamicBucket _ _ _ _ _ c => depthDP c + 1
  | .shuffle _ _ c => depthDP c + 1

/-- Modelled from the spec: the linear congruential pseudo-random generator
owned by a stochastic stage; its whole state is one natural number, fully
captured by snapshots. -/
def lcgNext (s : Nat) : Nat :=
  (6364136223846793005 * s + 1442695040888963407) % (2 ^ 64)

/-- Modelled from the spec: the dynamic-bucket closing rule.  A new item
closes the current bucket when the bucket already holds `maxEx` items, or
when it already has at least `minEx` items and admitting the item would
push the running cost over the threshold. -/
def shouldClose (threshold : Int) (cost : Item → Int) (minEx : Nat)
    (maxEx : Option Nat) (bucket : List Item) (x : Item) : Bool :=
  (match maxEx with
   | some m => decide (m ≤ bucket.length)
   | none => false)
  || (decide (minEx ≤ bucket.length)
      && decide (threshold < (bucket.map cost).sum + cost x))

/-- Draw one item from the shuffle buffer: advance the generator, pick a
uniformly distributed slot, yield it and remove it from the buffer. -/
def drawFrom (buf : List Item) (rng : Nat) (s : St) : Option (Item × St) :=
  buf[lcgNext rng % buf.length]?.map
    (fun x => (x, .shuffleSt (buf.eraseIdx (lcgNext rng % buf.length)) (lcgNext rng) s))

/-- Modelled from the spec: one pull from the root stage.  The first
argument is fuel bounding the total number of internal steps (descents
into children and upstream pulls inside buffering loops); with enough
fuel, exhaustion of the fuel is never observable. -/
def stepF : Nat → DP → St → Option (Item × St)
  | 0, _, _ => none
  | fuel + 1, p, st =>
    match p, st with
    | .readSequence l, .source pos =>
        l[pos]?.map (fun x => (x, .source (pos + 1)))
    | .mapStage f c, .mapSt s =>
        match stepF fuel c s with
        | some (x, s') => some (f x, .mapSt s')
        | none => none
    | .filterStage pred c, .filterSt s =>
        match stepF fuel c s with
        | some (x, s') =>
            if pred x then some (x, .filterSt s')
            else stepF fuel (.filterStage pred c) (.filterSt s')
        | none => none
    | .concat p1 p2, .concatSt onFirst s1 s2 =>
        if onFirst then
          match stepF fuel p1 s1 with
          | some (x, s1') => some (x, .concatSt true s1' s2)
          | none =>
              match stepF fuel p2 s2 with
              | some (x, s2') => some (x, .concatSt false s1 s2')
              | none => none
        else
          match stepF fuel p2 s2 with
          | some (x, s2') => some (x, .concatSt false s1 s2')
          | none => none
    | .bucket size drop c, .bucketSt acc s =>
        match stepF fuel c s with
        | some (x, s') =>
            if size ≤ acc.length + 1 then
              some (.seq (acc ++ [x]), .bucketSt [] s')
            else
              stepF fuel (.bucket size drop c) (.bucketSt (acc ++ [x]) s')
        | none =>
            if acc.isEmpty || drop then none
            else some (.seq acc, .bucketSt [] s)
    | .dynamicBucket th cost minEx maxEx drop c, .dynSt pending s =>
        match stepF fuel c s with
        | some (x, s') =>
            if shouldClose th cost minEx maxEx pending x then
              some (.seq pending, .dynSt [x] s')
            else
              stepF fuel (.dynamicBucket th cost minEx maxEx drop c)
                (.dynSt (pending ++ [x]) s')
        | none =>
            if pending.isEmpty || (decide (pending.length < minEx) && drop) then none
            else some (.seq pending, .dynSt [] s)
    | .shuffle size seed c, .shuffleSt buf rng s =>
        if buf.length < size || size == 0 then
          match stepF fuel c s with
          | some (x, s') =>
              stepF fuel (.shuffle size seed c) (.shuffleSt (buf ++ [x]) rng s')
          | none => drawFrom buf rng s
        else drawFrom buf rng s
    | _, _ => none

/-- Fuel sufficient for one pull at the given state. -/
def fuelFor (p : DP) (st : St) : Nat :=
  (stepBound p st + 2) * (depthDP p + 2)

/-- One pull from the pipeline: next item and successor state, or `none`
for `EndOfData`. -/
def step (p : DP) (st : St) : Option (Item × St) :=
  stepF (fuelFor p st) p st

/-- The next `n` items yielded starting from a state. -/
def drain (p : DP) : St → Nat → List Item
  | _, 0 => []
  | st, n + 1 =>
    match step p st with
    | some (x, st') => x :: drain p st' n
    | none => []

/-- Full consumption of a (finite) pipeline from its initial state. -/
def toListP (p : DP) : List Item :=
  drain p (initSt p) (stepBound p (initSt p) + 1)

/-! ## Snapshot / restore -/

/-- Modelled from the spec: a StateBlob is an opaque nested string-keyed
mapping mirroring the stage topology. -/
inductive Blob where
  | num (n : Nat) : Blob
  | flag (b : Bool) : Blob
  | items (xs : List Item) : Blob
  | node (kvs : List (String × Blob)) : Blob

/-- Snapshot: serialize the exact replay position, including buffered
look-ahead items and the generator state of stochastic stages. -/
def encodeSt : St → Blob
  | .source pos => .node [("pos", .num pos)]
  | .mapSt s => .node [("child", encodeSt s)]
  | .filterSt s => .node [("child", encodeSt s)]
  | .concatSt onFirst s1 s2 =>
      .node [("on_first", .flag onFirst), ("first", encodeSt s1), ("second", encodeSt s2)]
  | .bucketSt acc s => .node [("acc", .items acc), ("child", encodeSt s)]
  | .dynSt pending s => .node [("pending", .items pending), ("child", encodeSt s)]
  | .shuffleSt buf rng s =>
      .node [("buffer", .items buf), ("rng", .num rng), ("child", encodeSt s)]

/-- Restore: decode a blob back into a runtime state, routed structurally
by the graph; fails on a blob of the wrong shape. -/
def decodeSt : DP → Blob → Option St
  | .readSequence _, .node [(_, .num pos)] => some (.source pos)
  | .mapStage _ c, .node [(_, b)] => (decodeSt c b).map .mapSt
  | .filterStage _ c, .node [(_, b)] => (decodeSt c b).map .filterSt
  | .concat p q, .node [(_, .flag f), (_, b1), (_, b2)] =>
      match decodeSt p b1, decodeSt q b2 with
      | some s1, some s2 => some (.concatSt f s1 s2)
      | _, _ => none
  | .bucket _ _ c, .node [(_, .items acc), (_, b)] =>
      (decodeSt c b).map (.bucketSt acc)
  | .dynamicBucket _ _ _ _ _ c, .node [(_, .items xs), (_, b)] =>
      (decodeSt c b).map (.dynSt xs)
  | .shuffle _ _ c, .node [(_, .items buf), (_, .num rng), (_, b)] =>
      (decodeSt c b).map (.shuffleSt buf rng)
  | _, _ => none

/-- Reset to the start of the item sequence; a stochastic stage reseeds its
generator exactly when `reseedRng` is set. -/
def resetSt (reseedRng : Bool) : DP → St → St
  | .readSequence _, _ => .source 0
  | .mapStage _ c, .mapSt s => .mapSt (resetSt reseedRng c s)
  | .filterStage _ c, .filterSt s => .filterSt (resetSt reseedRng c s)
  | .concat p q, .concatSt _ s1 s2 =>
      .concatSt true (resetSt reseedRng p s1) (resetSt reseedRng q s2)
  | .bucket _ _ c, .bucketSt _ s => .bucketSt [] (resetSt reseedRng c s)
  | .dynamicBucket _ _ _ _ _ c, .dynSt _ s => .dynSt [] (resetSt reseedRng c s)
  | .shuffle _ seed c, .shuffleSt _ rng s =>
      .shuffleSt [] (if reseedRng then seed else rng) (resetSt reseedRng c s)
  | _, s => s

/-- The state reached after `k` pulls (a pull at end-of-data leaves the
position unchanged). -/
def advanceSt (p : DP) (s : St) : Nat → St
  | 0 => s
  | k + 1 =>
    match step p (advanceSt p s k) with
    | some (_, s') => s'
    | none => advanceSt p s k

/-- Modelled from the spec: a finalized Pipeline is a graph plus its
current iteration state, mutated only through pull / reset /
state_dict / load_state_dict. -/
structure Pipeline where
  graph : DP
  st : St

/-- Builder finalization: a pipeline in its "not yet started" state. -/
def mkPipeline (p : DP) : Pipeline := ⟨p, initSt p⟩

/-- Pull the next item, or `none` for `EndOfData`. -/
def pullP (pl : Pipeline) : Option (Item × Pipeline) :=
  (step pl.graph pl.st).map fun xs => (xs.1, ⟨pl.graph, xs.2⟩)

/-- Reset the pipeline to the start. -/
def resetP (reseedRng : Bool) (pl : Pipeline) : Pipeline :=
  ⟨pl.graph, resetSt reseedRng pl.graph pl.st⟩

/-- Capture the pipeline position as a serializable blob. -/
def stateDict (pl : Pipeline) : Blob := encodeSt pl.st

/-- Restore the pipeline to a previously captured position. -/
def loadStateDict (pl : Pipeline) (b : Blob) : Option Pipeline :=
  (decodeSt pl.graph b).map fun s => ⟨pl.graph, s⟩

/-- Advance the pipeline by `k` pulls. -/
def advanceP (pl : Pipeline) (k : Nat) : Pipeline :=
  ⟨pl.graph, advanceSt pl.graph pl.st k⟩

/-- The next `n` items of the pipeline. -/
def drainP (pl : Pipeline) (n : Nat) : List Item := drain pl.graph pl.st n

theorem fits_initSt (p : DP) : fits p (initSt p) = true := by
  induction p <;> simp [initSt, fits, *]

theorem fits_stepF : ∀ (fuel : Nat) (p : DP) (s : St) (x : Item) (s' : St),
    fits p s = true → stepF fuel p s = some (x, s') → fits p s' = true := by
  intro fuel
  induction fuel with
  | zero => intro p s x s' _ h; simp [stepF] at h
  | succ fuel ih =>
    intro p s x s' hf hs
    cases p with
    | readSequence l =>
      cases s <;> simp only [fits, Bool.false_eq_true, Bool.and_eq_true] at hf
      next pos =>
        simp only [stepF, Option.map_eq_some'] at hs
        obtain ⟨y, hy, heq⟩ := hs
        simp only [Prod.mk.injEq] at heq
        simp [fits, ← heq.2]
    | mapStage f c =>
      cases s <;> simp only [fits, Bool.false_eq_true, Bool.and_eq_true] at hf
      next s =>
        simp only [stepF] at hs
        cases hc : stepF fuel c s with
        | none => simp [hc] at hs
        | some xs =>
          obtain ⟨y, s1⟩ := xs
          simp [hc] at hs
          simp [fits, ← hs.2, ih c s y s1 hf hc]
    | filterStage pred c =>
      cases s <;> simp only [fits, Bool.false_eq_true, Bool.and_eq_true] at hf
      next s =>
        simp only [stepF] at hs
        cases hc : stepF fuel c s with
        | none => simp [hc] at hs
        | some xs =>
          obtain ⟨y, s1⟩ := xs
          have hf1 : fits c s1 = true := ih c s y s1 hf hc
          simp only [hc] at hs
          by_cases hp : pred y = true
          · simp [hp] at hs
            simp [fits, ← hs.2, hf1]
          · simp only [hp, Bool.false_eq_true, if_false] at hs
            exact ih _ _ _ _ (by simpa [fits] using hf1) hs
    | concat p1 p2 =>
      cases s <;> simp only [fits, Bool.false_eq_true, Bool.and_eq_true] at hf
      next onFirst s1 s2 =>
        simp only [stepF] at hs
        by_cases h1 : onFirst = true
        · simp only [h1, if_true] at hs
          cases hc : stepF fuel p1 s1 with
          | some xs =>
            obtain ⟨y, s1'⟩ := xs
            simp [hc] at hs
            simp [fits, ← hs.2, ih _ _ _ _ hf.1 hc, hf.2]
          | none =>
            simp only [hc] at hs
            cases hd : stepF fuel p2 s2 with
            | some xs =>
              obtain ⟨y, s2'⟩ := xs
              simp [hd] at hs
              simp [fits, ← hs.2, ih _ _ _ _ hf.2 hd, hf.1]
            | none => simp [hd] at hs
        · simp only [h1, if_false] at hs
          cases hd : stepF fuel p2 s2 with
          | some xs =>
            obtain ⟨y, s2'⟩ := xs
            simp [hd] at hs
            simp [fits, ← hs.2, ih _ _ _ _ hf.2 hd, hf.1]
          | none => simp [hd] at hs
    | bucket size drop c =>
      cases s <;> simp only [fits, Bool.false_eq_true, Bool.and_eq_true] at hf
      next acc s =>
        simp only [stepF] at hs
        cases hstep : stepF fuel c s with
        | some xs =>
          obtain ⟨y, s1⟩ := xs
          have hf1 : fits c s1 = true := ih _ _ _ _ hf hstep
          simp only [hstep] at hs
          by_cases hfull : size ≤ acc.length + 1
          · simp [hfull] at hs
            simp [fits, ← hs.2, hf1]
          · simp only [if_neg hfull] at hs
            exact ih _ _ _ _ (by simpa [fits] using hf1) hs
        | none =>
          simp only [hstep] at hs
          by_cases hend : (acc.isEmpty || drop) = true
          · simp [hend] at hs
          · simp only [hend, Bool.false_eq_true, if_false] at hs
            simp only [Option.some_inj, Prod.mk.injEq] at hs
            simp [fits, ← hs.2, hf]
    | dynamicBucket th cost minEx maxEx drop c =>
      cases s <;> simp only [fits, Bool.false_eq_true, Bool.and_eq_true] at hf
      next pending s =>
        simp only [stepF] at hs
        cases hstep : stepF fuel c s with
        | some xs =>
          obtain ⟨y, s1⟩ := xs
          have hf1 : fits c s1 = true := ih _ _ _ _ hf hstep
          simp only [hstep] at hs
          by_cases hclose : shouldClose th cost minEx maxEx pending y = true
          · simp [hclose] at hs
            simp [fits, ← hs.2, hf1]
          · simp only [hclose, Bool.false_eq_true, if_false] at hs
            exact ih _ _ _ _ (by simpa [fits] using hf1) hs
        | none =>
          simp only [hstep] at hs
          by_cases hend :
              (pending.isEmpty || (decide (pending.length < minEx) && drop)) = true
          · simp [hend] at hs
          · simp only [hend, Bool.false_eq_true, if_false] at hs
            simp only [Option.some_inj, Prod.mk.injEq] at hs
            simp [fits, ← hs.2, hf]
    | shuffle size seed c =>
      cases s <;> simp only [fits, Bool.false_eq_true, Bool.and_eq_true] at hf
      next buf rng s =>
        simp only [stepF] at hs
        split at hs
        · cases hstep : stepF fuel c s with
          | some xs =>
            obtain ⟨y, s1⟩ := xs
            have hf1 : fits c s1 = true := ih _ _ _ _ hf hstep
            simp only [hstep] at hs
            exact ih _ _ _ _ (by simpa [fits] using hf1) hs
          | none =>
            simp only [hstep, drawFrom, Option.map_eq_some'] at hs
            obtain ⟨y, hy, heq⟩ := hs
            simp only [Prod.mk.injEq] at heq
            simp [fits, ← heq.2, hf]
        · simp only [drawFrom, Option.map_eq_some'] at hs
          obtain ⟨y, hy, heq⟩ := hs
          simp only [Prod.mk.injEq] at heq
          simp [fits, ← heq.2, hf]

theorem fits_step (p : DP) (s : St) (x : Item) (s' : St)
    (hf : fits p s = true) (hs : step p s = some (x, s')) : fits p s' = true :=
  fits_stepF (fuelFor p s) p s x s' hf hs

theorem fits_advanceSt (p : DP) (s : St) (k : Nat) (hf : fits p s = true) :
    fits p (advanceSt p s k) = true := by
  induction k with
  | zero => exact hf
  | succ k ih =>
    simp only [advanceSt]
    cases hstep : step p (advanceSt p s k) with
    | none => exact ih
    | some xs => exact fits_step p _ xs.1 xs.2 ih hstep

/-- Snapshot then restore is the identity on well-shaped states. -/
theorem decode_encode (p : DP) (s : St) (hf : fits p s = true) :
    decodeSt p (encodeSt s) = some s := by
  induction p generalizing s with
  | readSequence l =>
    cases s <;> simp only [fits, Bool.false_eq_true, Bool.and_eq_true] at hf
    simp [encodeSt, decodeSt]
  | mapStage f c ih =>
    cases s <;> simp only [fits, Bool.false_eq_true, Bool.and_eq_true] at hf
    next s =>
      simp [encodeSt, decodeSt, ih s hf]
  | filterStage pred c ih =>
    cases s <;> simp only [fits, Bool.false_eq_true, Bool.and_eq_true] at hf
    next s =>
      simp [encodeSt, decodeSt, ih s hf]
  | concat p1 p2 ih1 ih2 =>
    cases s <;> simp only [fits, Bool.false_eq_true, Bool.and_eq_true] at hf
    next onFirst s1 s2 =>
      simp [encodeSt, decodeSt, ih1 s1 hf.1, ih2 s2 hf.2]
  | bucket size drop c ih =>
    cases s <;> simp only [fits, Bool.false_eq_true, Bool.and_eq_true] at hf
    next acc s =>
      simp [encodeSt, decodeSt, ih s hf]
  | dynamicBucket th cost minEx maxEx drop c ih =>
    cases s <;> simp only [fits, Bool.false_eq_true, Bool.and_eq_true] at hf
    next pending s =>
      simp [encodeSt, decodeSt, ih s hf]
  | shuffle size seed c ih =>
    cases s <;> simp only [fits, Bool.false_eq_true, Bool.and_eq_true] at hf
    next buf rng s =>
      simp [encodeSt, decodeSt, ih s hf]

theorem resetSt_eq_initSt (p : DP) (s : St) (hf : fits p s = true) :
    resetSt true p s = initSt p := by
  induction p generalizing s with
  | readSequence l =>
    cases s <;> simp [resetSt, initSt]
  | mapStage f c ih =>
    cases s <;> simp only [fits, Bool.false_eq_true, Bool.and_eq_true] at hf
    next s =>
      simp [resetSt, initSt, ih s hf]
  | filterStage pred c ih =>
    cases s <;> simp only [fits, Bool.false_eq_true, Bool.and_eq_true] at hf
    next s =>
      simp [resetSt, initSt, ih s hf]
  | concat p1 p2 ih1 ih2 =>
    cases s <;> simp only [fits, Bool.false_eq_true, Bool.and_eq_true] at hf
    next onFirst s1 s2 =>
      simp [resetSt, initSt, ih1 s1 hf.1, ih2 s2 hf.2]
  | bucket size drop c ih =>
    cases s <;> simp only [fits, Bool.false_eq_true, Bool.and_eq_true] at hf
    next acc s =>
      simp [resetSt, initSt, ih s hf]
  | dynamicBucket th cost minEx maxEx drop c ih =>
    cases s <;> simp only [fits, Bool.false_eq_true, Bool.and_eq_true] at hf
    next pending s =>
      simp [resetSt, initSt, ih s hf]
  | shuffle size seed c ih =>
    cases s <;> simp only [fits, Bool.false_eq_true, Bool.and_eq_true] at hf
    next buf rng s =>
      simp [resetSt, initSt, ih s hf]

/-- A concrete pipeline (the notebook's concat of two four-element
sequence sources) used to witness the stateful-operation claims. -/
def cpPipe : DP :=
  .concat (.readSequence [.int 1, .int 2, .int 3, .int 4])
    (.readSequence [.int 5, .int 6, .int 7, .int 8])

/-- Claim C1: checkpoint law.  For every pipeline and every pull count k,
restoring the snapshot taken after k pulls (state_dict then
load_state_dict, even after an intervening reset) restores exactly the
captured position: the remaining element sequence is unchanged, and if the
snapshot was taken at end-of-data the next pull again signals EndOfData
without re-yielding any element. -/
theorem checkpoint_law (p : DP) (k : Nat) :
    loadStateDict (resetP true (advanceP (mkPipeline p) k))
        (stateDict (advanceP (mkPipeline p) k)) = some (advanceP (mkPipeline p) k)
  ∧ (∀ q n, loadStateDict (resetP true (advanceP (mkPipeline p) k))
        (stateDict (advanceP (mkPipeline p) k)) = some q →
        drainP q n = drainP (advanceP (mkPipeline p) k) n)
  ∧ (pullP (advanceP (mkPipeline p) k) = none →
      ∀ q, loadStateDict (resetP true (advanceP (mkPipeline p) k))
          (stateDict (advanceP (mkPipeline p) k)) = some q → pullP q = none) := by
  have hfit : fits p (advanceSt p (initSt p) k) = true :=
    fits_advanceSt p (initSt p) k (fits_initSt p)
  have hmain : loadStateDict (resetP true (advanceP (mkPipeline p) k))
      (stateDict (advanceP (mkPipeline p) k)) = some (advanceP (mkPipeline p) k) := by
    simp [loadStateDict, resetP, stateDict, advanceP, mkPipeline,
      decode_encode p _ hfit]
  refine ⟨hmain, ?_, ?_⟩
  · intro q n hq
    rw [hmain] at hq
    injection hq with h
    rw [← h]
  · intro hend q hq
    rw [hmain] at hq
    injection hq with h
    rw [← h]
    exact hend

/-- Witness for checkpoint_law: at end-of-data of a concrete pipeline, the
restored pipeline's next pull is again EndOfData. -/
theorem checkpoint_law_witness :
    pullP (advanceP (mkPipeline cpPipe) 8) = none :=
  (checkpoint_law cpPipe 8).2.2 (by rfl) (advanceP (mkPipeline cpPipe) 8) (by rfl)

/-- Claim C4 (amended): for every pipeline of the core algebra, whose stage
functions are pure and hence cannot mutate the items retained by an
upstream source, reset (with reseeding) followed by consumption reproduces
exactly the first full consumption. -/
theorem reset_reproduces (p : DP) (s : St) (n : Nat) (hf : fits p s = true) :
    drain p (resetSt true p s) n = drain p (initSt p) n := by
  rw [resetSt_eq_initSt p s hf]

/-- Witness for reset_reproduces at a concrete mid-stream state. -/
theorem reset_reproduces_witness :
    fits cpPipe (advanceSt cpPipe (initSt cpPipe) 5) = true
  ∧ drain cpPipe (resetSt true cpPipe (advanceSt cpPipe (initSt cpPipe) 5)) 9
      = drain cpPipe (initSt cpPipe) 9 :=
  ⟨by rfl, reset_reproduces cpPipe (advanceSt cpPipe (initSt cpPipe) 5) 9 (by rfl)⟩

/-! ## Map functions that mutate their argument

Modelled from the notebook's dataclass example: the sequence source holds
references to its items, and a map function that mutates its argument
in place writes through to the item stored in the source.  The state is
therefore the stored items together with the cursor. -/

structure MutPipe where
  items : List Int
  pos : Nat
deriving DecidableEq

/-- One pull from a map-over-sequence pipeline whose function mutates the
pulled item in place: the yielded value is also written back to the
source's storage. -/
def mutMapStep (f : Int → Int) (m : MutPipe) : Option (Int × MutPipe) :=
  match m.items[m.pos]? with
  | some x => some (f x, ⟨m.items.set m.pos (f x), m.pos + 1⟩)
  | none => none

def mutMapDrain (f : Int → Int) : MutPipe → Nat → List Int
  | _, 0 => []
  | m, n + 1 =>
    match mutMapStep f m with
    | some (x, m') => x :: mutMapDrain f m' n
    | none => []

def mutMapAdvance (f : Int → Int) : MutPipe → Nat → MutPipe
  | m, 0 => m
  | m, n + 1 =>
    match mutMapStep f (mutMapAdvance f m n) with
    | some (_, m') => m'
    | none => mutMapAdvance f m n

/-- Reset rewinds the cursor but cannot undo mutations of stored items. -/
def mutReset (m : MutPipe) : MutPipe := ⟨m.items, 0⟩

/-- Claim C4 counterexample (exactly the notebook's dataclass example,
`Foo(value)` rendered as the integer it carries): with source [1, 2] and
the in-place mutating map function (+2), the first consumption yields
[3, 4] while consumption after reset yields [5, 6] — not the same
sequence, refuting the claim for mutating map functions. -/
theorem reset_claim_counterexample :
    mutMapDrain (fun x => x + 2) ⟨[1, 2], 0⟩ 2 = [3, 4]
  ∧ mutMapDrain (fun x => x + 2)
      (mutReset (mutMapAdvance (fun x => x + 2) ⟨[1, 2], 0⟩ 2)) 2 = [5, 6]
  ∧ mutMapDrain (fun x => x + 2)
      (mutReset (mutMapAdvance (fun x => x + 2) ⟨[1, 2], 0⟩ 2)) 2
      ≠ mutMapDrain (fun x => x + 2) ⟨[1, 2], 0⟩ 2 :=
  ⟨by decide, by decide, by decide⟩

/-! ## Dynamic bucketing (claim C7) -/

/-- Cost function of the notebook's constrained dynamic-bucket example:
the integer value of the item itself. -/
def intCost : Item → Int
  | .int n => n
  | _ => 0

/-- Claim C7: the dynamic bucket closes the current bucket before
admitting a new item exactly per the min/max/threshold rule; an empty
bucket always admits at least one item (the closing rule never fires on an
empty bucket when min and max are at least one), and on the notebook
example with cost f(x)=x, threshold 3, min 2, max 2, drop_remainder it
yields [0,0],[0,0],[1,2],[3,4], dropping the trailing [5]. -/
theorem dynamic_bucket_behavior :
    toListP (.dynamicBucket 3 intCost 2 (some 2) true
        (.readSequence (List.map Item.int [0, 0, 0, 0, 1, 2, 3, 4, 5])))
      = [.seq [.int 0, .int 0], .seq [.int 0, .int 0],
         .seq [.int 1, .int 2], .seq [.int 3, .int 4]]
  ∧ (∀ (th : Int) (cost : Item → Int) (minEx : Nat) (maxEx : Option Nat) (x : Item),
      1 ≤ minEx → (∀ m, maxEx = some m → 1 ≤ m) →
      shouldClose th cost minEx maxEx [] x = false) := by
  constructor
  · rfl
  · intro th cost minEx maxEx x hmin hmax
    unfold shouldClose
    cases maxEx with
    | none => simp; omega
    | some m =>
      have hm := hmax m rfl
      simp
      omega

/-- Witness for dynamic_bucket_behavior: with the notebook's parameters an
empty bucket admits the item 99 whose cost alone exceeds the threshold. -/
theorem dynamic_bucket_witness :
    shouldClose 3 intCost 2 (some 2) [] (.int 99) = false :=
  dynamic_bucket_behavior.2 3 intCost 2 (some 2) (.int 99) (by decide)
    (fun m hm => by
      have h2 : (2 : Nat) = m := Option.some.inj hm
      omega)

/-! ## Shuffle with buffer size one (claim C9) -/

theorem shuffle1_stepF_some (l : List Item) (seed f rng pos : Nat) (x : Item)
    (hget : l[pos]? = some x) :
    stepF (f + 1 + 1) (.shuffle 1 seed (.readSequence l))
      (.shuffleSt [] rng (.source pos))
      = some (x, .shuffleSt [] (lcgNext rng) (.source (pos + 1))) := by
  simp only [stepF]
  simp only [hget, Option.map_some']
  simp only [List.nil_append, List.length_nil, List.length_singleton]
  norm_num
  rw [drawFrom]
  simp only [List.length_singleton, Nat.mod_one, List.getElem?_cons_zero,
    Option.map_some', List.eraseIdx_cons_zero]

theorem shuffle1_stepF_none (l : List Item) (seed f rng pos : Nat)
    (hget : l[pos]? = none) :
    stepF (f + 1 + 1) (.shuffle 1 seed (.readSequence l))
      (.shuffleSt [] rng (.source pos)) = none := by
  simp only [stepF, hget, Option.map_none', ite_self]
  rw [drawFrom]
  simp only [List.getElem?_nil, Option.map_none']

theorem shuffle1_step (l : List Item) (seed rng pos : Nat) :
    step (.shuffle 1 seed (.readSequence l)) (.shuffleSt [] rng (.source pos))
      = l[pos]?.map
          (fun x => (x, .shuffleSt [] (lcgNext rng) (.source (pos + 1)))) := by
  obtain ⟨f, hf⟩ : ∃ f,
      fuelFor (.shuffle 1 seed (.readSequence l)) (.shuffleSt [] rng (.source pos))
        = f + 1 + 1 := by
    refine ⟨fuelFor (.shuffle 1 seed (.readSequence l))
      (.shuffleSt [] rng (.source pos)) - 2, ?_⟩
    simp only [fuelFor, stepBound, depthDP]
    omega
  rw [step, hf]
  cases hget : l[pos]? with
  | some x => simp [shuffle1_stepF_some l seed f rng pos x hget]
  | none => simp [shuffle1_stepF_none l seed f rng pos hget]

theorem shuffle1_drain (l : List Item) (seed : Nat) :
    ∀ (n rng pos : Nat),
      drain (.shuffle 1 seed (.readSequence l)) (.shuffleSt [] rng (.source pos)) n
        = (l.drop pos).take n := by
  intro n
  induction n with
  | zero => intro rng pos; rfl
  | succ n ih =>
    intro rng pos
    cases hget : l[pos]? with
    | none =>
      have hlen : l.length ≤ pos := List.getElem?_eq_none_iff.mp hget
      simp [drain, shuffle1_step, hget, List.drop_eq_nil_of_le hlen]
    | some x =>
      have hlt : pos < l.length := by
        by_contra hcon
        rw [List.getElem?_eq_none_iff.mpr (by omega)] at hget
        exact Option.noConfusion hget
      have hx : l[pos] = x := by
        rw [List.getElem?_eq_getElem hlt] at hget
        exact Option.some.inj hget
      rw [drain]
      rw [shuffle1_step, hget]
      simp only [Option.map_some']
      rw [ih (lcgNext rng) (pos + 1)]
      rw [List.drop_eq_getElem_cons hlt, hx, List.take_succ_cons]

/-- Claim C9: shuffle with buffer size one is the identity on the element
sequence: for every finite input and every seed it yields exactly the
input elements in their original order. -/
theorem shuffle_one_identity (l : List Item) (seed n : Nat) :
    drain (.shuffle 1 seed (.readSequence l))
        (initSt (.shuffle 1 seed (.readSequence l))) n = l.take n
  ∧ toListP (.shuffle 1 seed (.readSequence l)) = l := by
  have hmain : ∀ m, drain (.shuffle 1 seed (.readSequence l))
      (initSt (.shuffle 1 seed (.readSequence l))) m = l.take m := by
    intro m
    have h := shuffle1_drain l seed m seed 0
    simpa [initSt] using h
  refine ⟨hmain n, ?_⟩
  rw [toListP, hmain]
  have hb : stepBound (.shuffle 1 seed (.readSequence l))
      (initSt (.shuffle 1 seed (.readSequence l))) = l.length := by
    simp [stepBound, initSt]
  rw [hb]
  exact List.take_of_length_le (by omega)

/-! ## Multi-source combinators: children

Modelled from the spec and notebook: a child pipeline of a multi-source
combinator.  A finite child is a sequence source.  A pseudo-infinite child
(a constant or counting source) never reports EndOfData itself but does
not keep the combinator alive.  An infinite (Repeat-wrapped) child keeps
the combinator alive. -/

inductive Child (α : Type) where
  | fin (l : List α) : Child α
  | pseudo (f : Nat → α) : Child α
  | inf (f : Nat → α) : Child α

/-- The item a child yields at its k-th pull. -/
def childAt {α : Type} : Child α → Nat → Option α
  | .fin l, k => l[k]?
  | .pseudo f, k => some (f k)
  | .inf f, k => some (f k)

/-- Has the child reported EndOfData after p pulls? -/
def exhaustedAt {α : Type} : Child α → Nat → Bool
  | .fin l, k => decide (l.length ≤ k)
  | .pseudo _, _ => false
  | .inf _, _ => false

def isFinC {α : Type} : Child α → Bool
  | .fin _ => true
  | _ => false

def isPseudoC {α : Type} : Child α → Bool
  | .pseudo _ => true
  | _ => false

def isInfC {α : Type} : Child α → Bool
  | .inf _ => true
  | _ => false

/-- Is the child finite-and-exhausted (pseudo-infinite and infinite
children never are)? -/
def finExhausted {α : Type} (c : Child α) (p : Nat) : Bool :=
  match c with
  | .fin l => decide (l.length ≤ p)
  | _ => true

/-- Every finite child is exhausted at the given per-child positions. -/
def allFinExhausted {α : Type} (cs : List (Child α)) (pos : List Nat) : Bool :=
  (List.range cs.length).all fun i =>
    match cs[i]?, pos[i]? with
    | some c, some p => finExhausted c p
    | _, _ => true

/-- A multi-source combinator reports EndOfData when nothing keeps it
alive: no infinite child, and every finite child exhausted
(pseudo-infinite children do not keep it alive, except that a combinator
with no finite child and some pseudo-infinite child never ends). -/
def comboDone {α : Type} (cs : List (Child α)) (pos : List Nat) : Bool :=
  !(cs.any isInfC) && allFinExhausted cs pos
    && (cs.any isFinC || !(cs.any isPseudoC))

theorem childAt_isSome_of_not_exhausted {α : Type} (c : Child α) (p : Nat)
    (h : exhaustedAt c p = false) : ∃ x, childAt c p = some x := by
  cases c with
  | fin l =>
    simp [exhaustedAt] at h
    exact ⟨l[p], by simp [childAt, List.getElem?_eq_getElem h]⟩
  | pseudo f => exact ⟨f p, rfl⟩
  | inf f => exact ⟨f p, rfl⟩

theorem no_inf_of_all_fin {α : Type} (cs : List (Child α))
    (h : cs.all isFinC = true) :
    cs.any isInfC = false ∧ cs.any isPseudoC = false := by
  constructor <;>
  · rw [← Bool.not_eq_true, List.any_eq_true]
    rintro ⟨c, hc, hp⟩
    have hfin := List.all_eq_true.mp h c hc
    cases c <;> simp [isFinC, isPseudoC, isInfC] at hfin hp

/-! ## Round robin (claims C2 and C10) -/

/-- Round-robin state: per-child pull counts and the cyclic cursor. -/
structure RRState where
  pos : List Nat
  idx : Nat

/-- Child i can yield right now (finite children only while unexhausted;
exhausted finite children are skipped, i.e. removed from the cycle). -/
def rrEligible {α : Type} (cs : List (Child α)) (pos : List Nat) (i : Nat) : Bool :=
  match cs[i]?, pos[i]? with
  | some c, some p => !(exhaustedAt c p)
  | _, _ => false

/-- The child indices tried by one pull, in cyclic order from the cursor. -/
def rrOrder (n idx : Nat) : List Nat :=
  (List.range n).map fun k => (idx + k) % n

/-- The first still-eligible child in cyclic order. -/
def rrFind {α : Type} (cs : List (Child α)) (pos : List Nat) (idx : Nat) : Option Nat :=
  (rrOrder cs.length idx).find? (rrEligible cs pos)

/-- Modelled from the spec: one round-robin pull.  Yields the item, the
index of the child that produced it, and the successor state. -/
def rrStep {α : Type} (cs : List (Child α)) (st : RRState) :
    Option (α × Nat × RRState) :=
  if comboDone cs st.pos then none
  else
    match rrFind cs st.pos st.idx with
    | none => none
    | some i =>
      match cs[i]?, st.pos[i]? with
      | some c, some p =>
        match childAt c p with
        | some x => some (x, i, ⟨st.pos.set i (p + 1), (i + 1) % cs.length⟩)
        | none => none
      | _, _ => none

def rrInit {α : Type} (cs : List (Child α)) : RRState :=
  ⟨List.replicate cs.length 0, 0⟩

/-- The first n round-robin outputs, each tagged with its child index. -/
def rrDrain {α : Type} (cs : List (Child α)) : RRState → Nat → List (α × Nat)
  | _, 0 => []
  | st, n + 1 =>
    match rrStep cs st with
    | none => []
    | some (x, i, st') => (x, i) :: rrDrain cs st' n

theorem mem_rrOrder_of_lt (n idx j : Nat) (hj : j < n) : j ∈ rrOrder n idx := by
  have hn : 0 < n := by omega
  have hidx := Nat.div_add_mod idx n
  have hr : idx % n < n := Nat.mod_lt idx hn
  rcases le_or_lt (idx % n) j with hle | hlt
  · refine List.mem_map.mpr ⟨j - idx % n, List.mem_range.mpr (by omega), ?_⟩
    have h1 : idx + (j - idx % n) = n * (idx / n) + j := by omega
    rw [h1, Nat.mul_add_mod, Nat.mod_eq_of_lt hj]
  · refine List.mem_map.mpr ⟨j + n - idx % n, List.mem_range.mpr (by omega), ?_⟩
    have h1 : idx + (j + n - idx % n) = n * (idx / n + 1) + j := by
      have h2 : n * (idx / n + 1) = n * (idx / n) + n := by ring
      omega
    rw [h1, Nat.mul_add_mod, Nat.mod_eq_of_lt hj]

theorem rrEligible_lt {α : Type} (cs : List (Child α)) (pos : List Nat) (j : Nat)
    (hj : rrEligible cs pos j = true) : j < cs.length := by
  unfold rrEligible at hj
  cases hcs : cs[j]? with
  | none => rw [hcs] at hj; simp at hj
  | some c =>
    exact List.getElem?_eq_some.mp hcs |>.choose

theorem rrFind_isSome_of_eligible {α : Type} (cs : List (Child α)) (pos : List Nat)
    (idx j : Nat) (hj : rrEligible cs pos j = true) :
    ∃ i, rrFind cs pos idx = some i := by
  have hjlt : j < cs.length := rrEligible_lt cs pos j hj
  have hmem : j ∈ rrOrder cs.length idx := mem_rrOrder_of_lt cs.length idx j hjlt
  have hsome : (rrFind cs pos idx).isSome := by
    rw [rrFind, List.find?_isSome]
    exact ⟨j, hmem, hj⟩
  exact ⟨(rrFind cs pos idx).get hsome, Option.eq_some_of_isSome hsome⟩

/-- If the combinator is not done and some child is eligible, a pull
succeeds and advances that child's position. -/
theorem rrStep_some_of_eligible {α : Type} (cs : List (Child α)) (pos : List Nat)
    (idx : Nat) (hnd : comboDone cs pos = false)
    (j : Nat) (hj : rrEligible cs pos j = true) :
    ∃ x i p, pos[i]? = some p ∧
      rrStep cs ⟨pos, idx⟩ = some (x, i, ⟨pos.set i (p + 1), (i + 1) % cs.length⟩) := by
  obtain ⟨i, hfind⟩ := rrFind_isSome_of_eligible cs pos idx j hj
  have helig : rrEligible cs pos i = true := by
    have := List.find?_some (by rw [← rrFind]; exact hfind)
    exact this
  unfold rrEligible at helig
  cases hcs : cs[i]? with
  | none => rw [hcs] at helig; simp at helig
  | some c =>
    cases hpos : pos[i]? with
    | none => rw [hcs, hpos] at helig; simp at helig
    | some p =>
      rw [hcs, hpos] at helig
      simp only [Bool.not_eq_true'] at helig
      obtain ⟨x, hx⟩ := childAt_isSome_of_not_exhausted c p helig
      refine ⟨x, i, p, hpos, ?_⟩
      unfold rrStep
      simp only [hnd, Bool.false_eq_true, if_false, hfind, hcs, hpos, hx]

theorem rrStep_none_of_done {α : Type} (cs : List (Child α)) (st : RRState)
    (hd : comboDone cs st.pos = true) : rrStep cs st = none := by
  unfold rrStep
  simp [hd]

theorem comboDone_of_all_fin {α : Type} (cs : List (Child α)) (pos : List Nat)
    (hfin : cs.all isFinC = true) :
    comboDone cs pos = allFinExhausted cs pos := by
  obtain ⟨hinf, hps⟩ := no_inf_of_all_fin cs hfin
  unfold comboDone
  rw [hinf, hps]
  simp

theorem eligible_of_not_allFinExhausted {α : Type} (cs : List (Child α))
    (pos : List Nat) (hlen : pos.length = cs.length)
    (h : allFinExhausted cs pos = false) :
    ∃ j, rrEligible cs pos j = true := by
  have h' : ¬ ((List.range cs.length).all (fun i =>
      match cs[i]?, pos[i]? with
      | some c, some p => finExhausted c p
      | _, _ => true) = true) := by
    rw [show ((List.range cs.length).all (fun i =>
      match cs[i]?, pos[i]? with
      | some c, some p => finExhausted c p
      | _, _ => true)) = allFinExhausted cs pos from rfl, h]
    simp
  rw [List.all_eq_true] at h'
  push_neg at h'
  obtain ⟨i, hi, hmatch⟩ := h'
  have hilt : i < cs.length := List.mem_range.mp hi
  refine ⟨i, ?_⟩
  cases hcsv : cs[i]? with
  | none =>
    rw [List.getElem?_eq_none_iff] at hcsv
    omega
  | some c =>
    cases hposv : pos[i]? with
    | none =>
      rw [List.getElem?_eq_none_iff] at hposv
      omega
    | some p =>
      rw [hcsv, hposv] at hmatch
      cases c with
      | fin l =>
        simp only [finExhausted, decide_eq_true_eq] at hmatch
        simp only [rrEligible, hcsv, hposv, exhaustedAt, Bool.not_eq_true']
        simpa using hmatch
      | pseudo f => simp [finExhausted] at hmatch
      | inf f => simp [finExhausted] at hmatch

theorem rr_none_iff_allFinExhausted {α : Type} (cs : List (Child α))
    (pos : List Nat) (idx : Nat) (hfin : cs.all isFinC = true)
    (hlen : pos.length = cs.length) :
    rrStep cs ⟨pos, idx⟩ = none ↔ allFinExhausted cs pos = true := by
  constructor
  · intro hstep
    by_contra hall
    rw [Bool.not_eq_true] at hall
    obtain ⟨j, hj⟩ := eligible_of_not_allFinExhausted cs pos hlen hall
    have hnd : comboDone cs pos = false := by
      rw [comboDone_of_all_fin cs pos hfin, hall]
    obtain ⟨x, i, p, _, hsome⟩ := rrStep_some_of_eligible cs pos idx hnd j hj
    rw [hstep] at hsome
    exact Option.noConfusion hsome
  · intro hall
    exact rrStep_none_of_done cs ⟨pos, idx⟩
      (by rw [comboDone_of_all_fin cs pos hfin]; exact hall)

theorem rr_runs_forever {α : Type} (cs : List (Child α)) (hinf : cs.any isInfC = true) :
    ∀ (n : Nat) (pos : List Nat) (idx : Nat), pos.length = cs.length →
      (rrDrain cs ⟨pos, idx⟩ n).length = n := by
  intro n
  induction n with
  | zero => intro pos idx _; rfl
  | succ n ih =>
    intro pos idx hlen
    obtain ⟨c, hc, hcinf⟩ := List.any_eq_true.mp hinf
    obtain ⟨j, hj⟩ := List.mem_iff_getElem?.mp hc
    have hjlt : j < cs.length := by
      by_contra hcon
      rw [List.getElem?_eq_none_iff.mpr (by omega)] at hj
      exact Option.noConfusion hj
    have hjp : j < pos.length := by omega
    have hposj : pos[j]? = some pos[j] := List.getElem?_eq_getElem hjp
    have helig : rrEligible cs pos j = true := by
      cases c with
      | fin l => simp [isInfC] at hcinf
      | pseudo f => simp [isInfC] at hcinf
      | inf f => simp only [rrEligible, hj, hposj, exhaustedAt, Bool.not_false]
    have hnd : comboDone cs pos = false := by
      unfold comboDone
      rw [hinf]
      simp
    obtain ⟨x, i, p, hip, hsome⟩ := rrStep_some_of_eligible cs pos idx hnd j helig
    rw [show rrDrain cs ⟨pos, idx⟩ (n + 1)
        = match rrStep cs ⟨pos, idx⟩ with
          | none => []
          | some (x, i, st') => (x, i) :: rrDrain cs st' n from rfl, hsome]
    simp only [List.length_cons]
    rw [ih (pos.set i (p + 1)) ((i + 1) % cs.length) (by simp [hlen])]

theorem rrStep_chosen_eligible {α : Type} (cs : List (Child α)) (pos : List Nat)
    (idx : Nat) (x : α) (i : Nat) (st' : RRState)
    (h : rrStep cs ⟨pos, idx⟩ = some (x, i, st')) : rrEligible cs pos i = true := by
  unfold rrStep at h
  by_cases hd : comboDone cs pos = true
  · simp [hd] at h
  · rw [Bool.not_eq_true] at hd
    simp only [hd, Bool.false_eq_true, if_false] at h
    cases hfind : rrFind cs pos idx with
    | none =>
      simp only [hfind] at h
      exact Option.noConfusion h
    | some i' =>
      simp only [hfind] at h
      have helig : rrEligible cs pos i' = true := List.find?_some hfind
      cases hcs : cs[i']? with
      | none =>
        simp only [hcs] at h
        exact Option.noConfusion h
      | some c =>
        cases hpos : pos[i']? with
        | none =>
          simp only [hcs, hpos] at h
          exact Option.noConfusion h
        | some p =>
          simp only [hcs, hpos] at h
          cases hat : childAt c p with
          | none =>
            simp only [hat] at h
            exact Option.noConfusion h
          | some y =>
            simp only [hat, Option.some_inj, Prod.mk.injEq] at h
            rw [← h.2.1]
            exact helig

/-- The notebook's all-finite round robin: three sources of length four. -/
def rrCellA : List (Child Int) :=
  [.fin [1, 2, 3, 4], .fin [5, 6, 7, 8], .fin [0, 2, 4, 6]]

/-- Claim C2: round robin over N children pulls in strict cyclic order
0,1,...,N-1, permanently skipping exhausted children; it reports EndOfData
exactly when all (finite) children are exhausted; with an infinite child
it runs indefinitely; and every yielded element comes from a child that is
not exhausted. -/
theorem round_robin_behavior :
    rrDrain rrCellA (rrInit rrCellA) 13
      = [((1 : Int), 0), (5, 1), (0, 2), (2, 0), (6, 1), (2, 2),
         (3, 0), (7, 1), (4, 2), (4, 0), (8, 1), (6, 2)]
  ∧ (∀ (α : Type) (cs : List (Child α)) (pos : List Nat) (idx : Nat),
      cs.all isFinC = true → pos.length = cs.length →
      (rrStep cs ⟨pos, idx⟩ = none ↔ allFinExhausted cs pos = true))
  ∧ (∀ (α : Type) (cs : List (Child α)) (pos : List Nat) (idx n : Nat),
      cs.any isInfC = true → pos.length = cs.length →
      (rrDrain cs ⟨pos, idx⟩ n).length = n)
  ∧ (∀ (α : Type) (cs : List (Child α)) (pos : List Nat) (idx : Nat)
      (x : α) (i : Nat) (st' : RRState),
      rrStep cs ⟨pos, idx⟩ = some (x, i, st') → rrEligible cs pos i = true) := by
  refine ⟨by rfl, ?_, ?_, ?_⟩
  · intro α cs pos idx hfin hlen
    exact rr_none_iff_allFinExhausted cs pos idx hfin hlen
  · intro α cs pos idx n hinf hlen
    exact rr_runs_forever cs hinf n pos idx hlen
  · intro α cs pos idx x i st' h
    exact rrStep_chosen_eligible cs pos idx x i st' h

/-- Witness for round_robin_behavior: with the notebook children and all
positions at four, every child is exhausted and the next pull is
EndOfData. -/
theorem round_robin_witness :
    rrStep rrCellA ⟨[4, 4, 4], 0⟩ = none :=
  (round_robin_behavior.2.1 Int rrCellA [4, 4, 4] 0 (by rfl) (by rfl)).mpr (by rfl)

/-! ## Weighted sampling (claims C3, C8 and C10) -/

/-- Sample state: per-child pull counts and the previously drawn child. -/
structure SState where
  pos : List Nat
  prev : Option Nat

/-- Modelled from the spec: the weight used for child i at the next draw —
the configured weight, zeroed once the child is exhausted. -/
def effWeight {α : Type} (cs : List (Child α)) (pos : List Nat) (ws : List Nat)
    (i : Nat) : Nat :=
  match cs[i]?, pos[i]?, ws[i]? with
  | some c, some p, some w => if exhaustedAt c p then 0 else w
  | _, _, _ => 0

def effWeights {α : Type} (cs : List (Child α)) (pos : List Nat) (ws : List Nat) :
    List Nat :=
  (List.range cs.length).map (effWeight cs pos ws)

/-- The number of children still drawable (positive weight). -/
def countPos (ws : List Nat) : Nat := (ws.filter (fun w => decide (0 < w))).length

/-- Walk the cumulative distribution: the first index whose positive weight
bracket contains the remaining mass r. -/
def pickAux : List Nat → Nat → Nat → Option Nat
  | [], _, _ => none
  | w :: ws, r, i => if 0 < w ∧ r < w then some i else pickAux ws (r - w) (i + 1)

/-- The last index carrying positive weight (fallback for random values at
or beyond the total mass). -/
def lastPositive (ws : List Nat) : Option Nat :=
  ((List.range ws.length).filter (fun i => decide (0 < ws.getD i 0))).getLast?

/-- Modelled from the spec: draw a child index from the categorical
distribution given by the (not necessarily normalized) weights; the
randomness source supplies the mass point r (the drawn fraction of the
total weight, scaled to an integer). -/
def pickIndex (ws : List Nat) (r : Nat) : Option Nat :=
  match pickAux ws r 0 with
  | some i => some i
  | none => lastPositive ws

/-- Modelled from the spec: the weights actually used for one draw.  With
allow_repeats disabled the previously drawn child is excluded, unless at
most one child remains drawable. -/
def sampleWeights {α : Type} (cs : List (Child α)) (ws : List Nat) (st : SState)
    (allowRepeats : Bool) : List Nat :=
  if allowRepeats || decide (countPos (effWeights cs st.pos ws) ≤ 1) then
    effWeights cs st.pos ws
  else
    match st.prev with
    | some p => (effWeights cs st.pos ws).set p 0
    | none => effWeights cs st.pos ws

/-- Modelled from the spec: one pull of the sample combinator, given the
random value for this draw. -/
def sampleStep {α : Type} (cs : List (Child α)) (ws : List Nat) (allowRepeats : Bool)
    (r : Nat) (st : SState) : Option (α × Nat × SState) :=
  if comboDone cs st.pos then none
  else
    match pickIndex (sampleWeights cs ws st allowRepeats) r with
    | none => none
    | some i =>
      match cs[i]?, st.pos[i]? with
      | some c, some p =>
        match childAt c p with
        | some x => some (x, i, ⟨st.pos.set i (p + 1), some i⟩)
        | none => none
      | _, _ => none

/-- The first n sample outputs; each entry records the item, the drawn
child index, and how many children were drawable before the draw. -/
def sampleDrain {α : Type} (cs : List (Child α)) (ws : List Nat)
    (allowRepeats : Bool) (r : Nat → Nat) : SState → Nat → Nat → List (α × Nat × Nat)
  | _, _, 0 => []
  | st, t, n + 1 =>
    match sampleStep cs ws allowRepeats (r t) st with
    | none => []
    | some (x, i, st') =>
        (x, i, countPos (effWeights cs st.pos ws)) :: sampleDrain cs ws allowRepeats r st' (t + 1) n

def sampleInit {α : Type} (cs : List (Child α)) : SState :=
  ⟨List.replicate cs.length 0, none⟩

theorem pickAux_pos : ∀ (ws : List Nat) (r : Nat) (i j : Nat),
    pickAux ws r i = some j →
    ∃ w, ws[j - i]? = some w ∧ 0 < w ∧ i ≤ j := by
  intro ws
  induction ws with
  | nil => intro r i j h; simp [pickAux] at h
  | cons w ws ih =>
    intro r i j h
    rw [pickAux] at h
    by_cases hc : (0 < w ∧ r < w)
    · rw [if_pos hc] at h
      injection h with h
      subst h
      exact ⟨w, by simp, hc.1, le_refl i⟩
    · rw [if_neg hc] at h
      obtain ⟨w', hw', hpos, hle⟩ := ih (r - w) (i + 1) j h
      refine ⟨w', ?_, hpos, by omega⟩
      have hji : j - i = (j - (i + 1)) + 1 := by omega
      rw [hji, List.getElem?_cons_succ]
      exact hw'

theorem lastPositive_pos (ws : List Nat) (j : Nat)
    (h : lastPositive ws = some j) : ∃ w, ws[j]? = some w ∧ 0 < w := by
  have hmem : j ∈ (List.range ws.length).filter (fun i => decide (0 < ws.getD i 0)) :=
    List.mem_of_mem_getLast? h
  rw [List.mem_filter] at hmem
  obtain ⟨hr, hp⟩ := hmem
  have hj : j < ws.length := List.mem_range.mp hr
  rw [decide_eq_true_eq] at hp
  refine ⟨ws[j], List.getElem?_eq_getElem hj, ?_⟩
  rwa [List.getD_eq_getElem?_getD, List.getElem?_eq_getElem hj, Option.getD_some] at hp

theorem lastPositive_isSome (ws : List Nat) (i : Nat) (w : Nat)
    (hw : ws[i]? = some w) (hpos : 0 < w) : ∃ j, lastPositive ws = some j := by
  have hi : i < ws.length := by
    by_contra hcon
    rw [List.getElem?_eq_none_iff.mpr (by omega)] at hw
    exact Option.noConfusion hw
  have hmem : i ∈ (List.range ws.length).filter (fun k => decide (0 < ws.getD k 0)) := by
    rw [List.mem_filter]
    refine ⟨List.mem_range.mpr hi, ?_⟩
    rw [decide_eq_true_eq, List.getD_eq_getElem?_getD, hw, Option.getD_some]
    exact hpos
  have hne : ((List.range ws.length).filter (fun k => decide (0 < ws.getD k 0))) ≠ [] :=
    List.ne_nil_of_mem hmem
  rw [← List.getLast?_isSome, Option.isSome_iff_exists] at hne
  obtain ⟨j, hj⟩ := hne
  exact ⟨j, hj⟩

theorem pickIndex_pos (ws : List Nat) (r : Nat) (j : Nat)
    (h : pickIndex ws r = some j) : ∃ w, ws[j]? = some w ∧ 0 < w := by
  unfold pickIndex at h
  cases haux : pickAux ws r 0 with
  | some jj =>
    rw [haux] at h
    injection h with h
    subst h
    obtain ⟨w, hw, hpos, _⟩ := pickAux_pos ws r 0 jj haux
    exact ⟨w, by simpa using hw, hpos⟩
  | none =>
    rw [haux] at h
    exact lastPositive_pos ws j h

theorem pickIndex_isSome (ws : List Nat) (r : Nat) (i : Nat) (w : Nat)
    (hw : ws[i]? = some w) (hpos : 0 < w) : ∃ j, pickIndex ws r = some j := by
  unfold pickIndex
  cases haux : pickAux ws r 0 with
  | some j => exact ⟨j, rfl⟩
  | none =>
    obtain ⟨j, hj⟩ := lastPositive_isSome ws i w hw hpos
    exact ⟨j, by rw [hj]⟩

theorem effWeights_getElem {α : Type} (cs : List (Child α)) (pos : List Nat)
    (ws : List Nat) (i : Nat) (hi : i < cs.length) :
    (effWeights cs pos ws)[i]? = some (effWeight cs pos ws i) := by
  unfold effWeights
  rw [List.getElem?_map, List.getElem?_range hi]
  rfl

theorem effWeights_length {α : Type} (cs : List (Child α)) (pos : List Nat)
    (ws : List Nat) : (effWeights cs pos ws).length = cs.length := by
  simp [effWeights]

theorem countPos_cons (w : Nat) (ws : List Nat) :
    countPos (w :: ws) = (if 0 < w then 1 else 0) + countPos ws := by
  unfold countPos
  rw [List.filter_cons]
  by_cases hw : (0 : Nat) < w <;> simp [hw] <;> omega

theorem countPos_set_zero_ge (ws : List Nat) (p : Nat) :
    countPos ws ≤ countPos (ws.set p 0) + 1 := by
  induction ws generalizing p with
  | nil => simp [countPos, List.set]
  | cons w ws ih =>
    cases p with
    | zero =>
      rw [show (w :: ws).set 0 0 = (0 : Nat) :: ws from rfl,
        countPos_cons, countPos_cons]
      by_cases hw : (0 : Nat) < w <;> simp [hw] <;> omega
    | succ p =>
      rw [show (w :: ws).set (p + 1) 0 = w :: ws.set p 0 from rfl,
        countPos_cons, countPos_cons]
      have := ih p
      by_cases hw : (0 : Nat) < w <;> simp [hw] <;> omega

theorem countPos_pos_iff (ws : List Nat) :
    0 < countPos ws ↔ ∃ (i : Nat) (w : Nat), ws[i]? = some w ∧ 0 < w := by
  unfold countPos
  rw [List.length_pos]
  constructor
  · intro hne
    obtain ⟨w, hw⟩ := List.exists_mem_of_ne_nil _ hne
    rw [List.mem_filter] at hw
    obtain ⟨hmem, hpos⟩ := hw
    obtain ⟨i, hi⟩ := List.mem_iff_getElem?.mp hmem
    exact ⟨i, w, hi, by simpa using hpos⟩
  · rintro ⟨i, w, hw, hpos⟩
    have hmem : w ∈ ws := List.getElem?_mem hw
    exact List.ne_nil_of_mem (List.mem_filter.mpr ⟨hmem, by simpa using hpos⟩)

theorem sampleWeights_pick {α : Type} (cs : List (Child α)) (ws : List Nat)
    (st : SState) (aR : Bool) (r : Nat) (i : Nat)
    (h : pickIndex (sampleWeights cs ws st aR) r = some i) :
    0 < effWeight cs st.pos ws i
  ∧ (aR = false → countPos (effWeights cs st.pos ws) ≤ 1 ∨ st.prev ≠ some i) := by
  obtain ⟨w, hw, hpos⟩ := pickIndex_pos _ r i h
  unfold sampleWeights at hw
  by_cases hbr : (aR || decide (countPos (effWeights cs st.pos ws) ≤ 1)) = true
  · rw [if_pos hbr] at hw
    have hi : i < cs.length := by
      have h1 : i < (effWeights cs st.pos ws).length := by
        by_contra hcon
        rw [List.getElem?_eq_none_iff.mpr (by omega)] at hw
        exact Option.noConfusion hw
      rwa [effWeights_length] at h1
    rw [effWeights_getElem cs st.pos ws i hi] at hw
    injection hw with hw
    refine ⟨hw ▸ hpos, ?_⟩
    intro haR
    rw [haR] at hbr
    simp only [Bool.false_or, decide_eq_true_eq] at hbr
    exact Or.inl hbr
  · rw [if_neg hbr] at hw
    cases hprev : st.prev with
    | none =>
      simp only [hprev] at hw
      have hi : i < cs.length := by
        have h1 : i < (effWeights cs st.pos ws).length := by
          by_contra hcon
          rw [List.getElem?_eq_none_iff.mpr (by omega)] at hw
          exact Option.noConfusion hw
        rwa [effWeights_length] at h1
      rw [effWeights_getElem cs st.pos ws i hi] at hw
      injection hw with hw
      exact ⟨hw ▸ hpos, fun _ => Or.inr (by simp [hprev])⟩
    | some p =>
      simp only [hprev] at hw
      have hi : i < cs.length := by
        have h1 : i < ((effWeights cs st.pos ws).set p 0).length := by
          by_contra hcon
          rw [List.getElem?_eq_none_iff.mpr (by omega)] at hw
          exact Option.noConfusion hw
        rwa [List.length_set, effWeights_length] at h1
      by_cases hip : i = p
      · subst hip
        rw [List.getElem?_set_self (by rwa [effWeights_length])] at hw
        injection hw with hw
        rw [← hw] at hpos
        exact absurd hpos (lt_irrefl 0)
      · rw [List.getElem?_set_ne (by omega)] at hw
        rw [effWeights_getElem cs st.pos ws i hi] at hw
        injection hw with hw
        refine ⟨hw ▸ hpos, fun _ => Or.inr ?_⟩
        intro hcon
        injection hcon with hcon
        exact hip hcon.symm

theorem eligible_of_effWeight_pos {α : Type} (cs : List (Child α)) (pos : List Nat)
    (ws : List Nat) (i : Nat) (h : 0 < effWeight cs pos ws i) :
    ∃ c p, cs[i]? = some c ∧ pos[i]? = some p ∧ exhaustedAt c p = false := by
  unfold effWeight at h
  cases hcs : cs[i]? with
  | none => simp only [hcs] at h; exact absurd h (lt_irrefl 0)
  | some c =>
    cases hpos : pos[i]? with
    | none => simp only [hcs, hpos] at h; exact absurd h (lt_irrefl 0)
    | some p =>
      cases hws : ws[i]? with
      | none => simp only [hcs, hpos, hws] at h; exact absurd h (lt_irrefl 0)
      | some w =>
        simp only [hcs, hpos, hws] at h
        by_cases hex : exhaustedAt c p = true
        · rw [if_pos hex] at h
          exact absurd h (lt_irrefl 0)
        · exact ⟨c, p, rfl, rfl, by rwa [Bool.not_eq_true] at hex⟩

theorem effWeight_zero_of_exhausted {α : Type} (cs : List (Child α)) (pos : List Nat)
    (ws : List Nat) (i : Nat) (c : Child α) (p : Nat)
    (hcs : cs[i]? = some c) (hpos : pos[i]? = some p)
    (hex : exhaustedAt c p = true) : effWeight cs pos ws i = 0 := by
  unfold effWeight
  cases hws : ws[i]? <;> simp [hcs, hpos, hws, hex]

theorem effWeight_pos_of_eligible {α : Type} (cs : List (Child α)) (pos : List Nat)
    (ws : List Nat) (j : Nat) (c : Child α) (p : Nat)
    (hw : ∀ (i : Nat) (w : Nat), ws[i]? = some w → 0 < w)
    (hlw : ws.length = cs.length)
    (hcs : cs[j]? = some c) (hpos : pos[j]? = some p)
    (hex : exhaustedAt c p = false) : 0 < effWeight cs pos ws j := by
  have hj : j < cs.length := by
    by_contra hcon
    rw [List.getElem?_eq_none_iff.mpr (by omega)] at hcs
    exact Option.noConfusion hcs
  have hjw : j < ws.length := by omega
  have hwsj : ws[j]? = some ws[j] := List.getElem?_eq_getElem hjw
  unfold effWeight
  simp only [hcs, hpos, hwsj, hex, Bool.false_eq_true, if_false]
  exact hw j ws[j] hwsj

theorem rrEligible_elim {α : Type} (cs : List (Child α)) (pos : List Nat) (j : Nat)
    (h : rrEligible cs pos j = true) :
    ∃ c p, cs[j]? = some c ∧ pos[j]? = some p ∧ exhaustedAt c p = false := by
  unfold rrEligible at h
  cases hcs : cs[j]? with
  | none => simp only [hcs] at h; exact Bool.noConfusion h
  | some c =>
    cases hpos : pos[j]? with
    | none => simp only [hcs, hpos] at h; exact Bool.noConfusion h
    | some p =>
      simp only [hcs, hpos, Bool.not_eq_true'] at h
      exact ⟨c, p, rfl, rfl, h⟩

/-- If the combinator is not done, some child is eligible. -/
theorem eligible_child_of_not_done {α : Type} (cs : List (Child α)) (pos : List Nat)
    (hlen : pos.length = cs.length) (hnd : comboDone cs pos = false) :
    ∃ (j : Nat) (c : Child α) (p : Nat),
      cs[j]? = some c ∧ pos[j]? = some p ∧ exhaustedAt c p = false := by
  by_cases hinf : cs.any isInfC = true
  · obtain ⟨c, hc, hcinf⟩ := List.any_eq_true.mp hinf
    obtain ⟨j, hj⟩ := List.mem_iff_getElem?.mp hc
    have hjlt : j < cs.length := by
      by_contra hcon
      rw [List.getElem?_eq_none_iff.mpr (by omega)] at hj
      exact Option.noConfusion hj
    have hjp : j < pos.length := by omega
    have hposj : pos[j]? = some pos[j] := List.getElem?_eq_getElem hjp
    cases c with
    | fin l => simp [isInfC] at hcinf
    | pseudo f => simp [isInfC] at hcinf
    | inf f => exact ⟨j, .inf f, pos[j], hj, hposj, rfl⟩
  · rw [Bool.not_eq_true] at hinf
    unfold comboDone at hnd
    rw [hinf] at hnd
    simp only [Bool.not_false, Bool.true_and, Bool.and_eq_false_imp] at hnd
    by_cases hall : allFinExhausted cs pos = true
    · have hc := hnd hall
      rw [Bool.or_eq_false_iff] at hc
      obtain ⟨hfin, hps⟩ := hc
      rw [Bool.not_eq_false'] at hps
      obtain ⟨c, hc, hcps⟩ := List.any_eq_true.mp hps
      obtain ⟨j, hj⟩ := List.mem_iff_getElem?.mp hc
      have hjlt : j < cs.length := by
        by_contra hcon
        rw [List.getElem?_eq_none_iff.mpr (by omega)] at hj
        exact Option.noConfusion hj
      have hjp : j < pos.length := by omega
      have hposj : pos[j]? = some pos[j] := List.getElem?_eq_getElem hjp
      cases c with
      | fin l => simp [isPseudoC] at hcps
      | inf f => simp [isPseudoC] at hcps
      | pseudo f => exact ⟨j, .pseudo f, pos[j], hj, hposj, rfl⟩
    · rw [Bool.not_eq_true] at hall
      obtain ⟨j, hj⟩ := eligible_of_not_allFinExhausted cs pos hlen hall
      obtain ⟨c, p, hcs, hpos, hex⟩ := rrEligible_elim cs pos j hj
      exact ⟨j, c, p, hcs, hpos, hex⟩

theorem sampleStep_none_of_done {α : Type} (cs : List (Child α)) (ws : List Nat)
    (aR : Bool) (r : Nat) (st : SState) (hd : comboDone cs st.pos = true) :
    sampleStep cs ws aR r st = none := by
  unfold sampleStep
  simp [hd]

/-- Structure of a successful sample pull: the drawn child had positive
effective weight (hence was not exhausted), the no-repeat rule was obeyed,
and the state advanced that child and recorded it as previous. -/
theorem sampleStep_some_elim {α : Type} (cs : List (Child α)) (ws : List Nat)
    (aR : Bool) (r : Nat) (st : SState) (x : α) (i : Nat) (st' : SState)
    (h : sampleStep cs ws aR r st = some (x, i, st')) :
    (∃ p, st.pos[i]? = some p ∧ st' = ⟨st.pos.set i (p + 1), some i⟩)
  ∧ 0 < effWeight cs st.pos ws i
  ∧ (aR = false → countPos (effWeights cs st.pos ws) ≤ 1 ∨ st.prev ≠ some i) := by
  unfold sampleStep at h
  by_cases hd : comboDone cs st.pos = true
  · simp [hd] at h
  · rw [Bool.not_eq_true] at hd
    simp only [hd, Bool.false_eq_true, if_false] at h
    cases hpick : pickIndex (sampleWeights cs ws st aR) r with
    | none =>
      simp only [hpick] at h
      exact Option.noConfusion h
    | some j =>
      simp only [hpick] at h
      have hprops := sampleWeights_pick cs ws st aR r j hpick
      cases hcs : cs[j]? with
      | none =>
        simp only [hcs] at h
        exact Option.noConfusion h
      | some c =>
        cases hpos : st.pos[j]? with
        | none =>
          simp only [hcs, hpos] at h
          exact Option.noConfusion h
        | some p =>
          simp only [hcs, hpos] at h
          cases hat : childAt c p with
          | none =>
            simp only [hat] at h
            exact Option.noConfusion h
          | some y =>
            simp only [hat, Option.some_inj, Prod.mk.injEq] at h
            obtain ⟨hxy, hji, hst⟩ := h
            subst hji
            exact ⟨⟨p, hpos, hst.symm⟩, hprops.1, hprops.2⟩

/-- If the combinator is not done and all configured weights are positive,
a sample pull succeeds. -/
theorem sampleStep_some_of_not_done {α : Type} (cs : List (Child α)) (ws : List Nat)
    (aR : Bool) (r : Nat) (st : SState)
    (hw : ∀ (i : Nat) (w : Nat), ws[i]? = some w → 0 < w)
    (hlw : ws.length = cs.length) (hlp : st.pos.length = cs.length)
    (hnd : comboDone cs st.pos = false) :
    ∃ x i st', sampleStep cs ws aR r st = some (x, i, st') := by
  obtain ⟨j, c, p, hcs, hpos, hex⟩ :=
    eligible_child_of_not_done cs st.pos hlp hnd
  have heff : 0 < effWeight cs st.pos ws j :=
    effWeight_pos_of_eligible cs st.pos ws j c p hw hlw hcs hpos hex
  have hj : j < cs.length := by
    by_contra hcon
    rw [List.getElem?_eq_none_iff.mpr (by omega)] at hcs
    exact Option.noConfusion hcs
  have hsw : ∃ (k : Nat) (w : Nat),
      (sampleWeights cs ws st aR)[k]? = some w ∧ 0 < w := by
    unfold sampleWeights
    by_cases hbr : (aR || decide (countPos (effWeights cs st.pos ws) ≤ 1)) = true
    · rw [if_pos hbr]
      exact ⟨j, effWeight cs st.pos ws j, effWeights_getElem cs st.pos ws j hj, heff⟩
    · rw [if_neg hbr]
      cases hprev : st.prev with
      | none =>
        exact ⟨j, effWeight cs st.pos ws j, effWeights_getElem cs st.pos ws j hj, heff⟩
      | some q =>
        have hcnt : 2 ≤ countPos (effWeights cs st.pos ws) := by
          rw [Bool.or_eq_true, not_or] at hbr
          have := hbr.2
          simp only [decide_eq_true_eq] at this
          omega
        have hge := countPos_set_zero_ge (effWeights cs st.pos ws) q
        have hpos2 : 0 < countPos ((effWeights cs st.pos ws).set q 0) := by omega
        obtain ⟨k, w, hk, hwk⟩ := (countPos_pos_iff _).mp hpos2
        exact ⟨k, w, hk, hwk⟩
  obtain ⟨k, w, hk, hwk⟩ := hsw
  obtain ⟨i, hi⟩ := pickIndex_isSome (sampleWeights cs ws st aR) r k w hk hwk
  have hprops := sampleWeights_pick cs ws st aR r i hi
  obtain ⟨c', p', hcs', hpos', hex'⟩ :=
    eligible_of_effWeight_pos cs st.pos ws i hprops.1
  obtain ⟨y, hy⟩ := childAt_isSome_of_not_exhausted c' p' hex'
  refine ⟨y, i, ⟨st.pos.set i (p' + 1), some i⟩, ?_⟩
  unfold sampleStep
  simp only [hnd, Bool.false_eq_true, if_false, hi, hcs', hpos', hy]

theorem allFinExhausted_elim {α : Type} (cs : List (Child α)) (pos : List Nat)
    (i : Nat) (c : Child α) (p : Nat) (h : allFinExhausted cs pos = true)
    (hcs : cs[i]? = some c) (hpos : pos[i]? = some p) :
    finExhausted c p = true := by
  unfold allFinExhausted at h
  rw [List.all_eq_true] at h
  have hi : i < cs.length := by
    by_contra hcon
    rw [List.getElem?_eq_none_iff.mpr (by omega)] at hcs
    exact Option.noConfusion hcs
  have hmi := h i (List.mem_range.mpr hi)
  simp only [hcs, hpos] at hmi
  exact hmi

theorem sampleDrain_succ {α : Type} (cs : List (Child α)) (ws : List Nat)
    (aR : Bool) (rs : Nat → Nat) (st : SState) (t n : Nat) :
    sampleDrain cs ws aR rs st t (n + 1)
      = match sampleStep cs ws aR (rs t) st with
        | none => []
        | some (x, i, st') =>
            (x, i, countPos (effWeights cs st.pos ws))
              :: sampleDrain cs ws aR rs st' (t + 1) n := rfl

theorem sampleDrain_head {α : Type} (cs : List (Child α)) (ws : List Nat)
    (aR : Bool) (rs : Nat → Nat) (st : SState) (t n : Nat) (x : α) (i cnt : Nat)
    (h : (sampleDrain cs ws aR rs st t n)[0]? = some (x, i, cnt)) :
    ∃ st', sampleStep cs ws aR (rs t) st = some (x, i, st')
      ∧ cnt = countPos (effWeights cs st.pos ws) := by
  cases n with
  | zero => simp [sampleDrain] at h
  | succ n =>
    rw [sampleDrain_succ] at h
    cases hstep : sampleStep cs ws aR (rs t) st with
    | none =>
      simp only [hstep] at h
      simp at h
    | some y =>
      obtain ⟨x', j', st'⟩ := y
      simp only [hstep, List.getElem?_cons_zero, Option.some_inj, Prod.mk.injEq] at h
      obtain ⟨hx, hj, hcnt⟩ := h
      subst hx
      subst hj
      exact ⟨st', rfl, hcnt.symm⟩

/-- Claim C3: sample reports EndOfData exactly once every child is
exhausted (no infinite child and all finite children done); an exhausted
child's weight is zeroed for subsequent draws; with an infinite child
present sampling continues indefinitely; and when the infinite child is
the only non-finite child and all finite children are depleted, every
subsequent draw comes from the infinite child. -/
theorem sample_behavior :
    (∀ (α : Type) (cs : List (Child α)) (ws : List Nat) (r : Nat) (st : SState),
      (∀ (i w : Nat), ws[i]? = some w → 0 < w) → ws.length = cs.length →
      st.pos.length = cs.length → cs.any isPseudoC = false →
      (sampleStep cs ws true r st = none ↔
        cs.any isInfC = false ∧ allFinExhausted cs st.pos = true))
  ∧ (∀ (α : Type) (cs : List (Child α)) (ws pos : List Nat)
      (i : Nat) (c : Child α) (p : Nat),
      cs[i]? = some c → pos[i]? = some p → exhaustedAt c p = true →
      effWeight cs pos ws i = 0)
  ∧ (∀ (α : Type) (cs : List (Child α)) (ws : List Nat) (rs : Nat → Nat) (n : Nat),
      (∀ (i w : Nat), ws[i]? = some w → 0 < w) → ws.length = cs.length →
      cs.any isInfC = true →
      ∀ (st : SState) (t : Nat), st.pos.length = cs.length →
      (sampleDrain cs ws true rs st t n).length = n)
  ∧ (∀ (α : Type) (cs : List (Child α)) (ws : List Nat) (r : Nat) (st : SState)
      (x : α) (i j : Nat) (f : Nat → α) (st' : SState),
      cs[j]? = some (.inf f) →
      (∀ (k : Nat) (c : Child α), k ≠ j → cs[k]? = some c → isFinC c = true) →
      allFinExhausted cs st.pos = true →
      sampleStep cs ws true r st = some (x, i, st') → i = j) := by
  refine ⟨?_, ?_, ?_, ?_⟩
  · intro α cs ws r st hw hlw hlp hps
    constructor
    · intro hnone
      by_contra hcon
      have hnd : comboDone cs st.pos = false := by
        by_contra hnd'
        rw [Bool.not_eq_false] at hnd'
        unfold comboDone at hnd'
        rw [Bool.and_eq_true, Bool.and_eq_true] at hnd'
        obtain ⟨⟨ha, hb⟩, _⟩ := hnd'
        rw [Bool.not_eq_true'] at ha
        exact hcon ⟨ha, hb⟩
      obtain ⟨x, i, st', hsome⟩ :=
        sampleStep_some_of_not_done cs ws true r st hw hlw hlp hnd
      rw [hnone] at hsome
      exact Option.noConfusion hsome
    · rintro ⟨hinf, hall⟩
      apply sampleStep_none_of_done
      unfold comboDone
      rw [hinf, hall, hps]
      simp
  · intro α cs ws pos i c p hcs hpos hex
    exact effWeight_zero_of_exhausted cs pos ws i c p hcs hpos hex
  · intro α cs ws rs n hw hlw hinf
    induction n with
    | zero => intro st t _; rfl
    | succ n ih =>
      intro st t hlp
      have hnd : comboDone cs st.pos = false := by
        unfold comboDone
        rw [hinf]
        simp
      obtain ⟨x, i, st', hsome⟩ :=
        sampleStep_some_of_not_done cs ws true (rs t) st hw hlw hlp hnd
      rw [sampleDrain_succ, hsome]
      simp only [List.length_cons]
      obtain ⟨p, _, hster⟩ :=
        (sampleStep_some_elim cs ws true (rs t) st x i st' hsome).1
      rw [ih st' (t + 1) (by rw [hster]; simp [hlp])]
  · intro α cs ws r st x i j f st' hj hothers hall hsome
    have hprops := sampleStep_some_elim cs ws true r st x i st' hsome
    obtain ⟨c, p, hcs, hpos, hex⟩ :=
      eligible_of_effWeight_pos cs st.pos ws i hprops.2.1
    by_contra hij
    have hcfin := hothers i c hij hcs
    cases c with
    | fin l =>
      have hfe := allFinExhausted_elim cs st.pos i (.fin l) p hall hcs hpos
      simp only [finExhausted, decide_eq_true_eq] at hfe
      simp only [exhaustedAt, decide_eq_false_iff_not] at hex
      omega
    | pseudo g => simp [isFinC] at hcfin
    | inf g => simp [isFinC] at hcfin

/-- Witness for sample_behavior: a single exhausted finite child gives
EndOfData on the next draw. -/
theorem sample_behavior_witness :
    sampleStep [Child.fin ([7] : List Int)] [1] true 0 ⟨[1], none⟩ = none :=
  (sample_behavior.1 Int [Child.fin [7]] [1] 0 ⟨[1], none⟩
    (by
      intro i w hiw
      cases i with
      | zero =>
        simp at hiw
        omega
      | succ k => simp at hiw)
    (by rfl) (by rfl) (by rfl)).mpr ⟨by rfl, by rfl⟩

/-- Claim C8: with allow_repeats disabled the combinator never draws the
same child twice in direct succession, unless at most one child was still
drawable before the second draw (each trace entry records the number of
drawable children before its draw). -/
theorem sample_no_immediate_repeat :
    ∀ (α : Type) (cs : List (Child α)) (ws : List Nat) (rs : Nat → Nat) (n : Nat)
      (st : SState) (t j : Nat) (x1 x2 : α) (i1 i2 c1 c2 : Nat),
      (sampleDrain cs ws false rs st t n)[j]? = some (x1, i1, c1) →
      (sampleDrain cs ws false rs st t n)[j + 1]? = some (x2, i2, c2) →
      c2 ≤ 1 ∨ i2 ≠ i1 := by
  intro α cs ws rs n
  induction n with
  | zero =>
    intro st t j x1 x2 i1 i2 c1 c2 h1 _
    simp [sampleDrain] at h1
  | succ n ih =>
    intro st t j x1 x2 i1 i2 c1 c2 h1 h2
    rw [sampleDrain_succ] at h1 h2
    cases hstep : sampleStep cs ws false (rs t) st with
    | none =>
      simp only [hstep] at h1
      simp at h1
    | some y =>
      obtain ⟨x, i, st'⟩ := y
      simp only [hstep] at h1 h2
      cases j with
      | zero =>
        rw [List.getElem?_cons_zero] at h1
        rw [List.getElem?_cons_succ] at h2
        obtain ⟨st'', hstep2, hcnt⟩ :=
          sampleDrain_head cs ws false rs st' (t + 1) n x2 i2 c2 h2
        have hel2 := sampleStep_some_elim cs ws false (rs (t + 1)) st' x2 i2 st'' hstep2
        have hprev' : st'.prev = some i := by
          obtain ⟨p, _, hster⟩ :=
            (sampleStep_some_elim cs ws false (rs t) st x i st' hstep).1
          rw [hster]
        simp only [Option.some_inj, Prod.mk.injEq] at h1
        obtain ⟨_, hi1, _⟩ := h1
        cases hel2.2.2 rfl with
        | inl hle =>
          left
          rw [hcnt]
          exact hle
        | inr hne =>
          right
          intro hcon
          apply hne
          rw [hprev']
          exact congrArg some (by omega)
      | succ j =>
        rw [List.getElem?_cons_succ] at h1
        rw [List.getElem?_cons_succ] at h2
        exact ih st' (t + 1) j x1 x2 i1 i2 c1 c2 h1 h2

/-- Concrete no-repeat sample run: two finite children, equal weights,
constant random mass zero. -/
def csW : List (Child Int) := [.fin [10, 20, 30], .fin [40, 50, 60]]

/-- Witness for sample_no_immediate_repeat: the first two draws of the
concrete run pick children 0 then 1. -/
theorem sample_no_immediate_repeat_witness :
    (sampleDrain csW [1, 1] false (fun _ => 0) (sampleInit csW) 0 2)[0]?
        = some (10, 0, 2)
  ∧ (sampleDrain csW [1, 1] false (fun _ => 0) (sampleInit csW) 0 2)[1]?
        = some (40, 1, 2)
  ∧ ((2 : Nat) ≤ 1 ∨ (1 : Nat) ≠ 0) :=
  ⟨by rfl, by rfl,
    sample_no_immediate_repeat Int csW [1, 1] (fun _ => 0) 2 (sampleInit csW)
      0 0 10 40 0 1 2 2 (by rfl) (by rfl)⟩

/-- The notebook's pseudo-infinite round robin: a constant source between
two finite sources. -/
def rrCellB : List (Child Int) :=
  [.fin [1, 2, 3, 4], .pseudo (fun _ => 0), .fin [0, 2, 4, 6]]

/-- Claim C10: constant and counting sources are pseudo-infinite for the
multi-source combinators.  Round robin over such a child plus finite
children yields exactly the notebook's 12-element interleaving and then
EndOfData; sample with no infinite child but at least one finite child
reports EndOfData exactly when all finite children are exhausted, even
though a pseudo-infinite child could still yield. -/
theorem pseudo_infinite_behavior :
    (rrDrain rrCellB (rrInit rrCellB) 30).map Prod.fst
      = [1, 0, 0, 2, 0, 2, 3, 0, 4, 4, 0, 6]
  ∧ (∀ (α : Type) (cs : List (Child α)) (ws : List Nat) (r : Nat) (st : SState),
      (∀ (i w : Nat), ws[i]? = some w → 0 < w) → ws.length = cs.length →
      st.pos.length = cs.length → cs.any isInfC = false → cs.any isFinC = true →
      (sampleStep cs ws true r st = none ↔ allFinExhausted cs st.pos = true)) := by
  refine ⟨by rfl, ?_⟩
  intro α cs ws r st hw hlw hlp hinf hfin
  constructor
  · intro hnone
    by_contra hall
    rw [Bool.not_eq_true] at hall
    have hnd : comboDone cs st.pos = false := by
      unfold comboDone
      rw [hall]
      simp
    obtain ⟨x, i, st', hsome⟩ :=
      sampleStep_some_of_not_done cs ws true r st hw hlw hlp hnd
    rw [hnone] at hsome
    exact Option.noConfusion hsome
  · intro hall
    apply sampleStep_none_of_done
    unfold comboDone
    rw [hall, hinf, hfin]
    simp

/-- The notebook's sample over a finite source and a counting source. -/
def cs14 : List (Child Int) :=
  [.fin [1, 2, 3, 4], .pseudo (fun k => 5 + k)]

/-- Witness for pseudo_infinite_behavior: with the finite child exhausted,
the sample combinator reports EndOfData although the counting child could
still yield. -/
theorem pseudo_infinite_witness :
    sampleStep cs14 [2, 3] true 0 ⟨[4, 1], some 0⟩ = none :=
  (pseudo_infinite_behavior.2 Int cs14 [2, 3] 0 ⟨[4, 1], some 0⟩
    (by
      intro i w hiw
      cases i with
      | zero =>
        simp at hiw
        omega
      | succ k =>
        cases k with
        | zero =>
          simp at hiw
          omega
        | succ k2 => simp at hiw)
    (by rfl) (by rfl) (by rfl) (by rfl)).mpr (by rfl)

/-! ## Zip (claims C5 and C6) -/

/-- Modelled from the spec: pull one item from each child in child order;
fail as soon as a child is exhausted, discarding the items already pulled
from the children before it. -/
def pullHeads {α : Type} : List (List α) → Option (List α × List (List α))
  | [] => some ([], [])
  | [] :: _ => none
  | (x :: xs) :: rest =>
    match pullHeads rest with
    | some (h, t) => some (x :: h, xs :: t)
    | none => none

/-- One zip pull: a row with one item per child, or EndOfData as soon as
any child is exhausted. -/
def zipStep {α : Type} (ls : List (List α)) : Option (List α × List (List α)) :=
  if ls.isEmpty then none else pullHeads ls

/-- The first n zip rows. -/
def zipDrain {α : Type} : List (List α) → Nat → List (List α)
  | _, 0 => []
  | ls, n + 1 =>
    match zipStep ls with
    | none => []
    | some (row, ls') => row :: zipDrain ls' n

theorem zipDrain_succ {α : Type} (ls : List (List α)) (n : Nat) :
    zipDrain ls (n + 1)
      = match zipStep ls with
        | none => []
        | some (row, ls') => row :: zipDrain ls' n := rfl

theorem pullHeads_none_iff {α : Type} : ∀ ls : List (List α),
    pullHeads ls = none ↔ ∃ l ∈ ls, l = [] := by
  intro ls
  induction ls with
  | nil => simp [pullHeads]
  | cons l rest ih =>
    cases l with
    | nil => simp [pullHeads]
    | cons x xs =>
      constructor
      · intro h
        rw [pullHeads] at h
        cases hrest : pullHeads rest with
        | some ht =>
          obtain ⟨hh, tt⟩ := ht
          simp only [hrest] at h
          exact Option.noConfusion h
        | none =>
          obtain ⟨l0, hl0, hnil⟩ := ih.mp hrest
          exact ⟨l0, List.mem_cons_of_mem _ hl0, hnil⟩
      · rintro ⟨l0, hl0, rfl⟩
        rcases List.mem_cons.mp hl0 with heq | hmem
        · exact absurd heq.symm (List.cons_ne_nil x xs)
        · rw [pullHeads, ih.mpr ⟨[], hmem, rfl⟩]

theorem pullHeads_some_elim {α : Type} : ∀ (ls : List (List α)) (row : List α)
    (ls' : List (List α)), pullHeads ls = some (row, ls') →
    row.length = ls.length ∧ ls'.length = ls.length ∧
    ∀ (j : Nat) (l : List α), ls[j]? = some l →
      ∃ x xs, l = x :: xs ∧ row[j]? = some x ∧ ls'[j]? = some xs := by
  intro ls
  induction ls with
  | nil =>
    intro row ls' h
    rw [pullHeads] at h
    simp only [Option.some_inj, Prod.mk.injEq] at h
    obtain ⟨h1, h2⟩ := h
    subst h1
    subst h2
    refine ⟨rfl, rfl, ?_⟩
    intro j l hj
    simp at hj
  | cons l rest ih =>
    intro row ls' h
    cases l with
    | nil =>
      rw [pullHeads] at h
      exact Option.noConfusion h
    | cons x xs =>
      rw [pullHeads] at h
      cases hrest : pullHeads rest with
      | none =>
        simp only [hrest] at h
        exact Option.noConfusion h
      | some ht =>
        obtain ⟨hh, tt⟩ := ht
        simp only [hrest, Option.some_inj, Prod.mk.injEq] at h
        obtain ⟨hrow, hls'⟩ := h
        obtain ⟨ih1, ih2, ih3⟩ := ih hh tt hrest
        subst hrow
        subst hls'
        refine ⟨by simp [ih1], by simp [ih2], ?_⟩
        intro j l hj
        cases j with
        | zero =>
          rw [List.getElem?_cons_zero] at hj
          injection hj with hj
          exact ⟨x, xs, hj.symm, by simp, by simp⟩
        | succ j =>
          rw [List.getElem?_cons_succ] at hj
          obtain ⟨x', xs', hl, hr, ht'⟩ := ih3 j l hj
          exact ⟨x', xs', hl, by simpa using hr, by simpa using ht'⟩

theorem zipDrain_content {α : Type} : ∀ (n : Nat) (ls : List (List α)) (k : Nat)
    (row : List α), (zipDrain ls n)[k]? = some row →
    ∀ (j : Nat) (l : List α), ls[j]? = some l → row[j]? = l[k]? := by
  intro n
  induction n with
  | zero =>
    intro ls k row h
    simp [zipDrain] at h
  | succ n ih =>
    intro ls k row h j l hj
    rw [zipDrain_succ] at h
    unfold zipStep at h
    by_cases hne : ls.isEmpty = true
    · rw [List.isEmpty_iff] at hne
      subst hne
      simp at hj
    · rw [if_neg hne] at h
      cases hph : pullHeads ls with
      | none =>
        simp only [hph] at h
        simp at h
      | some rt =>
        obtain ⟨row0, ls'⟩ := rt
        simp only [hph] at h
        obtain ⟨_, _, hstruct⟩ := pullHeads_some_elim ls row0 ls' hph
        obtain ⟨x, xs, hl, hr0, hls'⟩ := hstruct j l hj
        cases k with
        | zero =>
          rw [List.getElem?_cons_zero] at h
          injection h with h
          subst h
          rw [hr0, hl]
          simp
        | succ k =>
          rw [List.getElem?_cons_succ] at h
          rw [ih ls' k row h j xs hls', hl]
          simp

theorem zipDrain_length_char {α : Type} : ∀ (n : Nat) (ls : List (List α)) (k : Nat),
    ls ≠ [] →
    (k < (zipDrain ls n).length ↔
      (k < n ∧ ∀ (j : Nat) (l : List α), ls[j]? = some l → k < l.length)) := by
  intro n
  induction n with
  | zero =>
    intro ls k hne
    simp [zipDrain]
  | succ n ih =>
    intro ls k hne
    rw [zipDrain_succ]
    unfold zipStep
    rw [if_neg (by simpa [List.isEmpty_iff] using hne)]
    cases hph : pullHeads ls with
    | none =>
      obtain ⟨l0, hl0, hl0nil⟩ := (pullHeads_none_iff ls).mp hph
      subst hl0nil
      obtain ⟨j0, hj0⟩ := List.mem_iff_getElem?.mp hl0
      simp only [List.length_nil]
      constructor
      · intro hk
        omega
      · rintro ⟨_, hall⟩
        have := hall j0 [] hj0
        simp at this
    | some rt =>
      obtain ⟨row0, ls'⟩ := rt
      obtain ⟨hlen1, hlen2, hstruct⟩ := pullHeads_some_elim ls row0 ls' hph
      simp only [List.length_cons]
      cases k with
      | zero =>
        simp only [Nat.zero_lt_succ, true_iff, true_and]
        intro j l hj
        obtain ⟨x, xs, hl, _, _⟩ := hstruct j l hj
        rw [hl]
        simp
      | succ k =>
        have hne' : ls' ≠ [] := by
          intro hcon
          rw [hcon] at hlen2
          simp only [List.length_nil] at hlen2
          exact hne (List.length_eq_zero.mp hlen2.symm)
        rw [Nat.succ_lt_succ_iff, ih ls' k hne']
        constructor
        · rintro ⟨hkn, hall'⟩
          refine ⟨by omega, ?_⟩
          intro j l hj
          obtain ⟨x, xs, hl, _, hls'⟩ := hstruct j l hj
          have hx := hall' j xs hls'
          rw [hl]
          simp only [List.length_cons]
          omega
        · rintro ⟨hkn, hall⟩
          refine ⟨by omega, ?_⟩
          intro j l' hj'
          have hjlt : j < ls.length := by
            have h1 : j < ls'.length := by
              by_contra hcon
              rw [List.getElem?_eq_none_iff.mpr (by omega)] at hj'
              exact Option.noConfusion hj'
            omega
          have hjl : ls[j]? = some ls[j] := List.getElem?_eq_getElem hjlt
          obtain ⟨x, xs, hl, _, hls'⟩ := hstruct j ls[j] hjl
          rw [hj'] at hls'
          injection hls' with hls'
          have hx := hall j ls[j] hjl
          rw [hl] at hx
          simp only [List.length_cons] at hx
          rw [hls']
          omega

/-- Claim C5: zip over finite children yields exactly min(lengths) rows,
each row containing the k-th item of every child in child order, and
reports EndOfData as soon as any child is exhausted: position k exists in
the output exactly when every child has a k-th item. -/
theorem zip_behavior :
    zipDrain [[(1 : Int), 2, 3, 4], [5, 6, 7, 8], [0, 2, 4, 6]] 5
      = [[1, 5, 0], [2, 6, 2], [3, 7, 4], [4, 8, 6]]
  ∧ zipDrain [[(1 : Int), 2, 3, 4], [5, 6]] 5 = [[1, 5], [2, 6]]
  ∧ (∀ (α : Type) (ls : List (List α)) (n k : Nat), ls ≠ [] →
      (k < (zipDrain ls n).length ↔
        (k < n ∧ ∀ (j : Nat) (l : List α), ls[j]? = some l → k < l.length)))
  ∧ (∀ (α : Type) (n : Nat) (ls : List (List α)) (k : Nat) (row : List α),
      (zipDrain ls n)[k]? = some row →
      ∀ (j : Nat) (l : List α), ls[j]? = some l → row[j]? = l[k]?) := by
  refine ⟨by rfl, by rfl, ?_, ?_⟩
  · intro α ls n k hne
    exact zipDrain_length_char n ls k hne
  · intro α n ls k row h j l hj
    exact zipDrain_content n ls k row h j l hj

/-- Witness for zip_behavior: with children of lengths 2 and 1, the output
has a row at position 0 (every child has a 0-th item). -/
theorem zip_behavior_witness :
    (0 : Nat) < (zipDrain [[(1 : Int), 2], [3]] 5).length :=
  (zip_behavior.2.2.1 Int [[1, 2], [3]] 5 0 (by simp)).mpr
    ⟨by omega, by
      intro j l hj
      cases j with
      | zero =>
        simp at hj
        rw [← hj]
        simp
      | succ j1 =>
        cases j1 with
        | zero =>
          simp at hj
          rw [← hj]
          simp
        | succ j2 => simp at hj⟩

/-! ## Zip with flatten (claim C6) -/

/-- The key/value pairs of an Item, when it is a Mapping. -/
def asDict : Item → Option (List (String × Item))
  | .dict kvs => some kvs
  | _ => none

/-- The keys of an Item (empty for non-Mappings). -/
def itemKeys : Item → List String
  | .dict kvs => kvs.map Prod.fst
  | _ => []

inductive ZipFlattenError where
  | nonMapping : ZipFlattenError
  | overlappingKeys : ZipFlattenError

/-- The Mapping contents of every item of a row, or `none` if some item is
not a Mapping. -/
def dictsOf : List Item → Option (List (List (String × Item)))
  | [] => some []
  | x :: rest =>
    match asDict x, dictsOf rest with
    | some kvs, some kvss => some (kvs :: kvss)
    | _, _ => none

/-- Modelled from the spec: flatten one zip row into the union Mapping of
all children's key/value pairs; fails when a child's item is not a
Mapping, or when two children share a key. -/
def flattenRow (row : List Item) : Except ZipFlattenError Item :=
  match dictsOf row with
  | none => .error .nonMapping
  | some kvss =>
    if (kvss.flatten.map Prod.fst).Nodup then .ok (.dict kvss.flatten)
    else .error .overlappingKeys

/-- A zip-with-flatten run: flatten every row, failing on the first bad
row. -/
def zipFlattenDrain (ls : List (List Item)) (n : Nat) :
    Except ZipFlattenError (List Item) :=
  (zipDrain ls n).mapM flattenRow

theorem dictsOf_none_iff : ∀ row : List Item,
    dictsOf row = none ↔ ∃ x ∈ row, asDict x = none := by
  intro row
  induction row with
  | nil => simp [dictsOf]
  | cons x rest ih =>
    cases hx : asDict x with
    | none =>
      simp only [dictsOf, hx]
      exact ⟨fun _ => ⟨x, List.mem_cons_self x rest, hx⟩, fun _ => trivial⟩
    | some kvs =>
      cases hrest : dictsOf rest with
      | none =>
        simp only [dictsOf, hx, hrest]
        refine ⟨fun _ => ?_, fun _ => trivial⟩
        obtain ⟨y, hy, hys⟩ := ih.mp hrest
        exact ⟨y, List.mem_cons_of_mem _ hy, hys⟩
      | some kvss =>
        simp only [dictsOf, hx, hrest]
        constructor
        · intro h
          exact Option.noConfusion h
        · rintro ⟨y, hy, hys⟩
          rcases List.mem_cons.mp hy with rfl | hmem
          · rw [hx] at hys
            exact Option.noConfusion hys
          · rw [ih.mpr ⟨y, hmem, hys⟩] at hrest
            exact Option.noConfusion hrest

theorem dictsOf_keys : ∀ (row : List Item) (kvss : List (List (String × Item))),
    dictsOf row = some kvss →
    row.flatMap itemKeys = kvss.flatten.map Prod.fst := by
  intro row
  induction row with
  | nil =>
    intro kvss h
    rw [dictsOf] at h
    injection h with h
    subst h
    rfl
  | cons x rest ih =>
    intro kvss h
    cases hx : asDict x with
    | none =>
      simp only [dictsOf, hx] at h
      exact Option.noConfusion h
    | some kvs =>
      cases hrest : dictsOf rest with
      | none =>
        simp only [dictsOf, hx, hrest] at h
        exact Option.noConfusion h
      | some kvss2 =>
        simp only [dictsOf, hx, hrest, Option.some_inj] at h
        subst h
        have hxd : itemKeys x = kvs.map Prod.fst := by
          cases x <;> simp [asDict] at hx
          case dict kvs2 =>
            subst hx
            rfl
        rw [List.flatMap_cons, List.flatten_cons, List.map_append, hxd,
          ih kvss2 hrest]

/-- Claim C6: zip with flatten yields per row the union Mapping of all
children's key/value pairs exactly when every child's item is a Mapping
and no two children share a key; it fails with nonMapping exactly when
some child's item is not a Mapping, and it fails (with either error)
exactly when some item is not a Mapping or two children share a key. -/
theorem zip_flatten_behavior :
    (∀ (row : List Item) (kvss : List (List (String × Item))),
      dictsOf row = some kvss →
      (flattenRow row = .ok (.dict kvss.flatten) ↔
        (kvss.flatten.map Prod.fst).Nodup))
  ∧ (∀ row : List Item,
      flattenRow row = .error .nonMapping ↔ ∃ x ∈ row, asDict x = none)
  ∧ (∀ row : List Item, (∃ e, flattenRow row = .error e) ↔
      ((∃ x ∈ row, asDict x = none) ∨ ¬ (row.flatMap itemKeys).Nodup))
  ∧ zipFlattenDrain
      [[.dict [("foo1", .int 1)], .dict [("foo1", .int 2)], .dict [("foo1", .int 3)]],
       [.dict [("foo2", .int 4), ("foo3", .int 5)],
        .dict [("foo2", .int 6), ("foo3", .int 7)],
        .dict [("foo2", .int 8), ("foo3", .int 9)]],
       [.dict [("foo4", .int 2)], .dict [("foo4", .int 3)], .dict [("foo4", .int 4)]]] 5
      = .ok
        [.dict [("foo1", .int 1), ("foo2", .int 4), ("foo3", .int 5), ("foo4", .int 2)],
         .dict [("foo1", .int 2), ("foo2", .int 6), ("foo3", .int 7), ("foo4", .int 3)],
         .dict [("foo1", .int 3), ("foo2", .int 8), ("foo3", .int 9), ("foo4", .int 4)]] := by
  refine ⟨?_, ?_, ?_, by rfl⟩
  · intro row kvss h
    simp only [flattenRow, h]
    by_cases hnd : (kvss.flatten.map Prod.fst).Nodup
    · rw [if_pos hnd]
      exact ⟨fun _ => hnd, fun _ => rfl⟩
    · rw [if_neg hnd]
      exact ⟨fun hcon => Except.noConfusion hcon, fun hcon => absurd hcon hnd⟩
  · intro row
    cases hd : dictsOf row with
    | none =>
      simp only [flattenRow, hd]
      exact ⟨fun _ => (dictsOf_none_iff row).mp hd, fun _ => trivial⟩
    | some kvss =>
      simp only [flattenRow, hd]
      by_cases hnd : (kvss.flatten.map Prod.fst).Nodup
      · rw [if_pos hnd]
        constructor
        · intro hcon
          exact Except.noConfusion hcon
        · intro hbad
          rw [(dictsOf_none_iff row).mpr hbad] at hd
          exact Option.noConfusion hd
      · rw [if_neg hnd]
        constructor
        · intro hcon
          injection hcon with hcon
          exact ZipFlattenError.noConfusion hcon
        · intro hbad
          rw [(dictsOf_none_iff row).mpr hbad] at hd
          exact Option.noConfusion hd
  · intro row
    cases hd : dictsOf row with
    | none =>
      simp only [flattenRow, hd]
      exact ⟨fun _ => Or.inl ((dictsOf_none_iff row).mp hd), fun _ => ⟨.nonMapping, rfl⟩⟩
    | some kvss =>
      simp only [flattenRow, hd]
      rw [dictsOf_keys row kvss hd]
      by_cases hnd : (kvss.flatten.map Prod.fst).Nodup
      · rw [if_pos hnd]
        constructor
        · rintro ⟨e, he⟩
          exact Except.noConfusion he
        · rintro (hbad | hbad)
          · rw [(dictsOf_none_iff row).mpr hbad] at hd
            exact Option.noConfusion hd
          · exact absurd hnd hbad
      · rw [if_neg hnd]
        exact ⟨fun _ => Or.inr hnd, fun _ => ⟨.overlappingKeys, rfl⟩⟩

/-- Witness for zip_flatten_behavior: a row of two disjoint singleton
Mappings flattens to their union. -/
theorem zip_flatten_witness :
    flattenRow [.dict [("a", .int 1)], .dict [("b", .int 2)]]
      = .ok (.dict [("a", .int 1), ("b", .int 2)]) :=
  (zip_flatten_behavior.1 [.dict [("a", .int 1)], .dict [("b", .int 2)]]
    [[("a", .int 1)], [("b", .int 2)]] (by rfl)).mpr (by simp)

end Fairseq2
